import Mathlib

/-!
# GraphVisualisation: data transformation and visibility selection

A shallow embedding of the pure parts of `graph-visualisation.js`:
`normaliseCSV`, `primaryNodeColumnName`, `links`, `nodes`, `parseData`,
`saveSettings` / `loadSettings` / `getSettingValues` and the node selection
made by `nodeSelectionChanged` with `getAdjacentNodes`.

JavaScript objects are association lists of their own properties, in
property order, and a property read sees own properties only; a JavaScript
`Map` is an association list in insertion order; strings are Lean strings.
-/

namespace GraphVisualisation

/-! ## JavaScript values -/

/-- The JavaScript values that the row and node objects of the program hold:
`undefined`, strings, the natural numbers used as degrees, and `NaN`. -/
inductive JsVal where
  | undefined : JsVal
  | str (s : String) : JsVal
  | num (n : Nat) : JsVal
  | nan : JsVal
  deriving DecidableEq, Repr

/-- String conversion of a value, as `+` with a string operand and property
access perform it. -/
def toStr : JsVal → String
  | .undefined => "undefined"
  | .str s => s
  | .num n => Nat.repr n
  | .nan => "NaN"

/-- The `+` operator on the modelled values: numeric addition of two numbers,
string concatenation as soon as one operand is a string, `NaN` otherwise. -/
def jsPlus : JsVal → JsVal → JsVal
  | .num a, .num b => .num (a + b)
  | .str a, v => .str (a ++ toStr v)
  | v, .str b => .str (toStr v ++ b)
  | _, _ => .nan

/-- A row object after normalisation: own properties in property order. -/
abbrev Row := List (String × JsVal)

/-- A row object as the CSV parser yields it: every cell is a string. -/
abbrev RawRow := List (String × String)

/-- Property read `o[k]`: the value of the own property, else `undefined`. -/
def getProp (o : Row) (k : String) : JsVal :=
  match o.lookup k with
  | some v => v
  | none => .undefined

/-- Property write `o[k] = v`: overwrite in place, or append a new property. -/
def setProp : Row → String → JsVal → Row
  | [], k, v => [(k, v)]
  | (k', v') :: rest, k, v =>
    if k' = k then (k, v) :: rest else (k', v') :: setProp rest k v

/-! ## normaliseCSV -/

/-- The characters matched by `\s` and removed by `trim()`. -/
def isWhiteSpace (c : Char) : Bool :=
  let n := c.toNat
  n = 9 || n = 10 || n = 11 || n = 12 || n = 13 || n = 32 || n = 0xA0 ||
  n = 0x1680 || (0x2000 ≤ n && n ≤ 0x200A) || n = 0x2028 || n = 0x2029 ||
  n = 0x202F || n = 0x205F || n = 0x3000 || n = 0xFEFF

/-- The method `trim()` on the characters of a string. -/
def trimChars (cs : List Char) : List Char :=
  ((cs.dropWhile isWhiteSpace).reverse.dropWhile isWhiteSpace).reverse

/-- The call `replace(/\s+/g, ' ')` on the characters of a string; the flag
tells whether the previous character belonged to a whitespace run. -/
def collapseChars : Bool → List Char → List Char
  | _, [] => []
  | inRun, c :: cs =>
    if isWhiteSpace c then
      (if inRun then collapseChars true cs else ' ' :: collapseChars true cs)
    else c :: collapseChars false cs

/-- The expression `value.trim().replace(/\s+/g, ' ')`. -/
def normaliseValue (value : String) : String :=
  String.mk (collapseChars false (trimChars value.data))

/-- The body of the `for` loop of `normaliseCSV` over the entries of one row.
`previousRow` is `csvSoFar.at(-1)`; reading a property of `undefined` throws,
which is the result `none`. -/
def fillRow (previousRow : Option Row) : RawRow → Option Row
  | [] => some []
  | (key, value) :: rest =>
    if value = "" then
      match previousRow with
      | none => none
      | some p => (fillRow previousRow rest).map (fun newRow => (key, getProp p key) :: newRow)
    else
      (fillRow previousRow rest).map (fun newRow => (key, .str (normaliseValue value)) :: newRow)

/-- The reduction of `normaliseCSV` from an accumulator `csvSoFar`. -/
def normaliseFrom (csvSoFar : List Row) : List RawRow → Option (List Row)
  | [] => some csvSoFar
  | row :: rest =>
    match fillRow csvSoFar.getLast? row with
    | none => none
    | some newRow => normaliseFrom (csvSoFar ++ [newRow]) rest

/-- The function `normaliseCSV(csv)`; `none` is a thrown `TypeError`. -/
def normaliseCSV (csv : List RawRow) : Option (List Row) :=
  normaliseFrom [] csv

/-! ## The graph model: primaryNodeColumnName, links, nodes, parseData -/

/-- A node object built by `nodes`. -/
structure Node where
  id : String
  name : JsVal
  type : JsVal
  primary : Bool
  degree : JsVal
  deriving DecidableEq, Repr

/-- A link object built by `links`. The layout replaces `source` and `target`
by the node objects having these ids, so that `link.source.id` and
`link.target.id` read back the strings kept here. -/
structure Link where
  source : String
  target : String
  deriving DecidableEq, Repr

/-- The function `primaryNodeColumnName(csv)`: the first property name of the
first row that is neither `other_node` nor `other_node_type`, `undefined`
when there is none; `none` is the `TypeError` thrown for an empty array. -/
def primaryNodeColumnName (csv : List Row) : Option JsVal :=
  match csv.head? with
  | none => none
  | some first =>
    match (first.map Prod.fst).filter
        (fun columnName => !(["other_node", "other_node_type"].contains columnName)) with
    | [] => some .undefined
    | columnName :: _ => some (.str columnName)

/-- The function `links(csv, primaryColumnName)`. -/
def links (csv : List Row) (primaryColumnName : JsVal) : List Link :=
  csv.map fun row =>
    { source := toStr primaryColumnName ++ ": " ++ toStr (getProp row (toStr primaryColumnName)),
      target := toStr (getProp row "other_node_type") ++ ": " ++ toStr (getProp row "other_node") }

/-- A JavaScript `Map` from values to rows, in insertion order. -/
abbrev RowMap := List (JsVal × Row)

/-- The method `map.get(key)`, `none` when `map.has(key)` is false. -/
def mapGet : RowMap → JsVal → Option Row
  | [], _ => none
  | (k, r) :: rest, key => if k = key then some r else mapGet rest key

/-- The method `map.set(key, row)`: an existing key keeps its position. -/
def mapSet : RowMap → JsVal → Row → RowMap
  | [], key, row => [(key, row)]
  | (k, r) :: rest, key, row =>
    if k = key then (key, row) :: rest else (k, r) :: mapSet rest key row

/-- One call of the reducer that both passes of `nodes` use, with the key
computed by `keyOf`: the row gets its `degree` property written, then
replaces the row held for its key. -/
def countStep (keyOf : Row → JsVal) (map : RowMap) (row : Row) : RowMap × Row :=
  let key := keyOf row
  let row1 :=
    match mapGet map key with
    | some previous => setProp row "degree" (jsPlus (.num 1) (getProp previous "degree"))
    | none => setProp row "degree" (.num 1)
  (mapSet map key row1, row1)

/-- The reduction of `csv` by `countStep` from an empty `Map`. The rows are
objects shared with `csv`, so the result also holds the array as the
reduction leaves it, each row with its `degree` written. -/
def countRows (keyOf : Row → JsVal) (csv : List Row) : RowMap × List Row :=
  csv.foldl
    (fun state row => ((countStep keyOf state.1 row).1, state.2 ++ [(countStep keyOf state.1 row).2]))
    ([], [])

/-- The node object made of a row of the first pass. -/
def primaryNode (primaryNodeColumnName : JsVal) (row : Row) : Node :=
  { id := toStr primaryNodeColumnName ++ ": " ++ toStr (getProp row (toStr primaryNodeColumnName)),
    name := getProp row (toStr primaryNodeColumnName),
    type := primaryNodeColumnName,
    primary := true,
    degree := getProp row "degree" }

/-- The key of the second pass, which is also the id of the other node. -/
def otherKey (row : Row) : String :=
  toStr (getProp row "other_node_type") ++ ": " ++ toStr (getProp row "other_node")

/-- The node object made of a row of the second pass. -/
def otherNode (row : Row) : Node :=
  { id := otherKey row,
    name := getProp row "other_node",
    type := getProp row "other_node_type",
    primary := false,
    degree := getProp row "degree" }

/-- The primary nodes of `nodes(csv, primaryNodeColumnName)`. -/
def uniquePrimaryNodes (csv : List Row) (primaryNodeColumnName : JsVal) : List Node :=
  ((countRows (fun row => getProp row (toStr primaryNodeColumnName)) csv).1.map Prod.snd).map
    (primaryNode primaryNodeColumnName)

/-- The other nodes of `nodes(csv, primaryNodeColumnName)`; the second pass
runs over the rows as the first pass left them. -/
def uniqueOtherNodes (csv : List Row) (primaryNodeColumnName : JsVal) : List Node :=
  let csv1 := (countRows (fun row => getProp row (toStr primaryNodeColumnName)) csv).2
  ((countRows (fun row => .str (otherKey row)) csv1).1.map Prod.snd).map otherNode

/-- The function `nodes(csv, primaryNodeColumnName)`. -/
def nodes (csv : List Row) (primaryNodeColumnName : JsVal) : List Node :=
  uniquePrimaryNodes csv primaryNodeColumnName ++ uniqueOtherNodes csv primaryNodeColumnName

/-- The function `parseData` after the CSV parser: the pair of `linksData`
and `nodesData`, `none` when a step throws. -/
def parseData (unnormalisedData : List RawRow) : Option (List Link × List Node) :=
  match normaliseCSV unnormalisedData with
  | none => none
  | some data =>
    match primaryNodeColumnName data with
    | none => none
    | some column => some (links data column, nodes data column)

/-! ## Settings -/

/-- The entries of a `FormData` object, in order. -/
abbrev FormData := List (String × String)

/-- The method `formData.get(name)`: the first value, `none` for `null`. -/
def FormData.get (formData : FormData) (name : String) : Option String :=
  formData.lookup name

/-- The method `formData.getAll(name)`. -/
def FormData.getAll (formData : FormData) (name : String) : List String :=
  (formData.filter (fun entry => entry.1 = name)).map Prod.snd

/-- The settings object: own properties holding arrays of strings. -/
abbrev Settings := List (String × List String)

/-- The function `getSettingValues(settings, name)`: the own property `name`
of the settings object, an array being truthy, else a new empty array. -/
def getSettingValues (settings : Settings) (name : String) : List String :=
  match settings.lookup name with
  | some value => value
  | none => []

/-- The filter of `nodeSelectionChanged` that gives `selectedNodesData`. -/
def selectedNodesData (nodesData : List Node) (formData : FormData) : List Node :=
  nodesData.filter fun node =>
    let mode := formData.get (toStr node.type ++ "-mode")
    if mode = some "selected" then
      (formData.getAll (toStr node.type)).any (fun value => JsVal.str value = node.name)
    else if mode = some "all" then true
    else false

/-- The array `neighbourNodeIdentifiers` of `getAdjacentNodes`. -/
def neighbourNodeIdentifiers (linksData : List Link) (selectedNodes : List Node) : List String :=
  linksData.foldl
    (fun identifiers link =>
      let identifiers1 :=
        if selectedNodes.any (fun selectedNode => selectedNode.id = link.source)
        then identifiers ++ [link.target] else identifiers
      if selectedNodes.any (fun selectedNode => selectedNode.id = link.target)
      then identifiers1 ++ [link.source] else identifiers1)
    []

/-- The function `getAdjacentNodes(selectedNodes, formData)`, with the fields
`nodesData` and `linksData` it reads as arguments. -/
def getAdjacentNodes (nodesData : List Node) (linksData : List Link)
    (selectedNodes : List Node) (formData : FormData) : List Node :=
  let identifiers := neighbourNodeIdentifiers linksData selectedNodes
  nodesData.filter fun node =>
    if formData.get (toStr node.type ++ "-mode") = some "adjacent" then
      identifiers.contains node.id
    else false

/-- The array `newNodesData` of `nodeSelectionChanged`, which becomes
`liveNodesData`. -/
def liveNodesData (nodesData : List Node) (linksData : List Link) (formData : FormData) :
    List Node :=
  let selected := selectedNodesData nodesData formData
  let adjacentNodesData := getAdjacentNodes nodesData linksData selected formData
  let secondaryAdjacentNodesData := getAdjacentNodes nodesData linksData adjacentNodesData formData
  selected ++ adjacentNodesData ++ secondaryAdjacentNodesData

/-- The cell that `normaliseCSV` writes for one entry of a row whose
predecessor in the output is `previousRow`. -/
def fillCell (previousRow : Row) (entry : String × String) : String × JsVal :=
  (entry.1, if entry.2 = "" then getProp previousRow entry.1 else .str (normaliseValue entry.2))

/-- The output rows of `normaliseCSV` for the rows that follow an output row. -/
def fillFrom (previousRow : Row) : List RawRow → List Row
  | [] => []
  | row :: rest => row.map (fillCell previousRow) :: fillFrom (row.map (fillCell previousRow)) rest

/-- The cell of column `k` in row `i` of the parsed CSV. -/
def rawCell (csv : List RawRow) (i : Nat) (k : String) : Option String :=
  csv[i]?.bind (fun row => row.lookup k)

/-- The cell of column `k` in row `i` of the normalised CSV. -/
def cell (csv : List Row) (i : Nat) (k : String) : Option JsVal :=
  csv[i]?.bind (fun row => row.lookup k)

/-- Rows whose only cell holds one space. -/
def blankOnlyCsv : List RawRow := [[("Company", " ")]]

/-- The example rows of the specification, with a padded cell. -/
def acmeCsv : List RawRow :=
  [[("Company", " Acme  Ltd"), ("other_node", "Bob"), ("other_node_type", "Person")],
   [("Company", ""), ("other_node", "Carol"), ("other_node_type", "Person")]]

/-- The `degree` properties of the rows that a `Map` holds, in order. -/
def degrees (map : RowMap) : List JsVal :=
  map.map (fun e => getProp e.2 "degree")

/-- The sum of the degrees of a list of nodes, added up with `+` from `0`. -/
def degreeSum (nodesData : List Node) : JsVal :=
  (nodesData.map (fun node => node.degree)).foldl jsPlus (.num 0)

/-- Whether the characters contain the separator `": "` that `nodes` and
`links` put between a type and a name. -/
def hasSeparator : List Char → Bool
  | [] => false
  | c :: cs => (c = ':' && cs.head? = some ' ') || hasSeparator cs

/-- What `countRows` keeps true of its `Map`, of the rows it has written and
of the rows `done` it has reduced. -/
def CountInv (keyOf : Row → JsVal) (state : RowMap × List Row) (done : List Row) : Prop :=
  (∀ e ∈ state.1, ∃ row ∈ done, ∃ v, e.2 = setProp row "degree" v ∧ e.1 = keyOf row) ∧
  (state.1.map Prod.fst).Nodup ∧
  (∀ row ∈ done, keyOf row ∈ state.1.map Prod.fst) ∧
  (∀ r ∈ state.2, ∃ row ∈ done, ∃ v, r = setProp row "degree" v) ∧
  (∀ row ∈ done, ∃ r ∈ state.2, ∃ v, r = setProp row "degree" v)

/-- A row whose type and name can be split in two ways. -/
def collidingCsv : List RawRow :=
  [[("a", "b: c"), ("other_node", "c"), ("other_node_type", "a: b")]]

/-- A row of a CSV whose primary column is called `degree`. -/
def degreeCsv : List RawRow :=
  [[("degree", "Acme"), ("other_node", "Bob"), ("other_node_type", "Person")]]

/-- The normalised rows of the specification's example. -/
def acmeRows : List Row :=
  [[("Company", .str "Acme"), ("other_node", .str "Bob"), ("other_node_type", .str "Person")],
   [("Company", .str "Acme"), ("other_node", .str "Carol"), ("other_node_type", .str "Person")]]

/-- Whether some link joins the ids `a` and `b`, in either direction. -/
def linked (linksData : List Link) (a b : String) : Bool :=
  linksData.any fun link =>
    (link.source = a && link.target = b) || (link.source = b && link.target = a)

/-- The identifiers that one link adds to `neighbourNodeIdentifiers`. -/
def linkNeighbours (selectedNodes : List Node) (link : Link) : List String :=
  (if selectedNodes.any (fun selectedNode => selectedNode.id = link.source)
    then [link.target] else []) ++
  (if selectedNodes.any (fun selectedNode => selectedNode.id = link.target)
    then [link.source] else [])

/-- Rows with a primary type and two other types. -/
def cityRows : List Row :=
  [[("Company", .str "Acme"), ("other_node", .str "Bob"), ("other_node_type", .str "Person")],
   [("Company", .str "Initech"), ("other_node", .str "Paris"), ("other_node_type", .str "City")]]

/-- A configuration showing all companies and cities, and people when adjacent. -/
def cityForm : FormData :=
  [("Company-mode", "all"), ("Person-mode", "adjacent"), ("City-mode", "all")]

/-- A configuration showing all cities, and the other types when adjacent. -/
def cityOnlyForm : FormData :=
  [("Company-mode", "adjacent"), ("Person-mode", "adjacent"), ("City-mode", "all")]

/-- The node `Person: Bob` of `cityRows`. -/
def bobNode : Node := ⟨"Person: Bob", .str "Bob", .str "Person", false, .num 1⟩

/-- The node `Company: Acme` of `acmeRows`. -/
def acmeNode : Node := ⟨"Company: Acme", .str "Acme", .str "Company", true, .num 2⟩

/-- Three nodes with pairwise distinct ids. -/
def triangleNodes : List Node :=
  [⟨"A: a", .str "a", .str "A", true, .num 2⟩,
   ⟨"B: b1", .str "b1", .str "B", false, .num 2⟩,
   ⟨"B: b2", .str "b2", .str "B", false, .num 2⟩]

/-- Links joining each pair of `triangleNodes`. -/
def triangleLinks : List Link :=
  [⟨"A: a", "B: b1"⟩, ⟨"A: a", "B: b2"⟩, ⟨"B: b1", "B: b2"⟩]

/-- A configuration showing all nodes of type `A`, and those of type `B` when adjacent. -/
def triangleForm : FormData := [("A-mode", "all"), ("B-mode", "adjacent")]

/-- A configuration with a mode for companies and an adjacent mode for people. -/
def acmeForm : FormData := [("Company-mode", "all"), ("Person-mode", "adjacent")]

/-- A configuration hiding people explicitly. -/
def acmeFormPersonNone : FormData := [("Company-mode", "all"), ("Person-mode", "none")]

/-- A configuration in which people are shown when selected, none being selected. -/
def acmeFormPersonSelected : FormData := [("Company-mode", "all"), ("Person-mode", "selected")]

/-! ## Settings keys and the display-labels checkbox -/

/-- The bytes of the UTF-8 encoding of the code point `n`. -/
def utf8Bytes (n : Nat) : List Nat :=
  if n < 0x80 then [n]
  else if n < 0x800 then [0xC0 + n / 64, 0x80 + n % 64]
  else if n < 0x10000 then [0xE0 + n / 4096, 0x80 + n / 64 % 64, 0x80 + n % 64]
  else [0xF0 + n / 262144, 0x80 + n / 4096 % 64, 0x80 + n / 64 % 64, 0x80 + n % 64]

/-- The upper-case hexadecimal digit of a value below 16. -/
def hexDigit (d : Nat) : Char :=
  if d < 10 then Char.ofNat (48 + d) else Char.ofNat (55 + d)

/-- The escape sequence of one byte. -/
def percentByte (b : Nat) : List Char :=
  ['%', hexDigit (b / 16), hexDigit (b % 16)]

/-- The characters that `encodeURIComponent` leaves as they are: letters,
digits and `- _ . ! ~ * ' ( )`. -/
def isUriUnreserved (c : Char) : Bool :=
  c.isAlphanum || [45, 95, 46, 33, 126, 42, 39, 40, 41].contains c.toNat

/-- What `encodeURIComponent` writes for one character. -/
def encodeChar (c : Char) : List Char :=
  if isUriUnreserved c then [c] else (utf8Bytes c.toNat).flatMap percentByte

/-- The platform function `encodeURIComponent`, on strings without lone
surrogates, which are the strings of the model. -/
def encodeURIComponent (s : String) : String :=
  String.mk (s.data.flatMap encodeChar)

/-- The three controls that `updateToolbar` creates for a node type. -/
inductive Control where
  | displayLabels : Control
  | mode : Control
  | nodeList : Control
  deriving DecidableEq, Repr

/-- The `name` attribute of a control of a node type, which is its key in the
form data and in the saved settings: `encodeURIComponent(nodeType +
" display labels")` for the checkbox, `nodeType + "-mode"` for the radio
buttons, `nodeType` for the selection list. -/
def settingsKey (nodeType : JsVal) : Control → String
  | .displayLabels => encodeURIComponent (toStr nodeType ++ " display labels")
  | .mode => toStr nodeType ++ "-mode"
  | .nodeList => toStr nodeType

/-- The string that an array of strings converts to: its elements joined by
commas. -/
def arrayToString (values : List String) : String :=
  ",".intercalate values

/-- Whether `updateToolbar` checks the display-labels checkbox of a node
type: the test `showLabelsValue != 0` on the array read from the settings.
The comparison converts the array to a string and the string to a number;
`stringIsZero` is the platform's answer whether that number is 0. -/
def displayLabelsChecked (stringIsZero : String → Bool) (settings : Settings)
    (nodeType : JsVal) : Bool :=
  let id := encodeURIComponent (toStr nodeType ++ " display labels")
  let showLabelsValue := getSettingValues settings id
  !(stringIsZero (arrayToString showLabelsValue))

/-- A conversion of strings to numbers that takes the empty string, and no
other string, to 0; it agrees with the platform on the empty string. -/
def onlyEmptyIsZero (s : String) : Bool := s.isEmpty

/-! ## Label wrapping -/

/-- The UTF-16 code units of a character. -/
def utf16Units (c : Char) : List Nat :=
  if c.toNat < 0x10000 then [c.toNat]
  else [0xD800 + (c.toNat - 0x10000) / 1024, 0xDC00 + (c.toNat - 0x10000) % 1024]

/-- The code units of a string, which JavaScript counts and compares. -/
def codeUnits (s : String) : List Nat :=
  s.data.flatMap utf16Units

/-- The property `length` of a string. -/
def jsLength (s : String) : Nat :=
  (codeUnits s).length

/-- The test `x <= maxLineLength` for a whole number `x`, where
`maxLineLength = Math.min(30, Math.max(nameLength / 3, 15))`: `x` is at most
`nameLength / 3` exactly when `3 * x` is at most `nameLength`. -/
def fitsMaxLineLength (nameLength x : Nat) : Bool :=
  decide (x ≤ 30) && (decide (3 * x ≤ nameLength) || decide (x ≤ 15))

/-- The call `replaceAll('-', '- ')` on the characters of a string. -/
def hyphenSpaced (cs : List Char) : List Char :=
  cs.flatMap fun c => if c = '-' then ['-', ' '] else [c]

/-- The array `words`: `d.name.replaceAll('-', '- ').split(" ")`. -/
def labelWords (name : String) : List String :=
  ((hyphenSpaced name.data).splitOn ' ').map String.mk

/-- The reducer of the label-wrapping fold, for a name of `nameLength` code
units. -/
def wrapStep (nameLength : Nat) (lines : List String) (word : String) : List String :=
  match lines.getLast? with
  | none => lines ++ [word]
  | some currentLine =>
    if fitsMaxLineLength nameLength (jsLength currentLine + 1 + jsLength word) then
      lines.dropLast ++ [currentLine ++ " " ++ word]
    else
      lines.dropLast ++ [currentLine ++ " ", word]

/-- The array `lines` that `updateSimulationData` computes for a node name. -/
def labelLines (name : String) : List String :=
  (labelWords name).foldl (wrapStep (jsLength name)) []

/-- The concatenation of the lines, in order. -/
def concatLines (lines : List String) : String :=
  String.mk (lines.flatMap String.data)

/-- A line is acceptable when it fits `maxLineLength` or is a single token. -/
def LineOk (name : String) (content : String) : Prop :=
  fitsMaxLineLength (jsLength name) (jsLength content) = true ∨ content ∈ labelWords name

/-- A name whose first two tokens fill a line of 15 characters exactly. -/
def fullLineName : String := "aaaaaaa bbbbbbb ccccccccccccccc"

/-! ## Colours of the node types -/

/-- The method `add` of a `Set`, kept in insertion order. -/
def setAdd (set : List JsVal) (value : JsVal) : List JsVal :=
  if set.contains value then set else set ++ [value]

/-- The set `uniqueNodeTypes` of `updateToolbar`, as the array made of it. -/
def uniqueNodeTypes (nodesData : List Node) : List JsVal :=
  nodesData.foldl (fun nodeTypes node => setAdd nodeTypes node.type) []

/-- Whether a list of code units is at most another, position by position. -/
def unitsLe : List Nat → List Nat → Bool
  | [], _ => true
  | _ :: _, [] => false
  | x :: xs, y :: ys => decide (x < y) || (decide (x = y) && unitsLe xs ys)

/-- The order of the method `sort()` without comparison function: `undefined`
comes last, other values are compared as strings, by code units. -/
def typeLe (a b : JsVal) : Bool :=
  match a, b with
  | _, .undefined => true
  | .undefined, _ => false
  | a, b => unitsLe (codeUnits (toStr a)) (codeUnits (toStr b))

/-- The method `sort()` on the array of node types; the sort is stable. -/
def sortTypes (types : List JsVal) : List JsVal :=
  types.insertionSort (fun a b => typeLe a b = true)

/-- The method `map.set(nodeType, value)` on the colour map. -/
def hueSet : List (JsVal × ℚ) → JsVal → ℚ → List (JsVal × ℚ)
  | [], key, value => [(key, value)]
  | (k, v) :: rest, key, value =>
    if k = key then (key, value) :: rest else (k, v) :: hueSet rest key value

/-- The reduction that builds `nodeTypeColour`, from position `ordinal` of an
array of `length` elements. The colour stored for a type is the colour scale
at `ordinal / array.length`, brightened; the map holds the fraction. -/
def hueReduce (length : Nat) : List (JsVal × ℚ) → Nat → List JsVal → List (JsVal × ℚ)
  | map, _, [] => map
  | map, ordinal, nodeType :: rest =>
    hueReduce length (hueSet map nodeType ((ordinal : ℚ) / (length : ℚ))) (ordinal + 1) rest

/-- The map `nodeTypeColour` of `updateToolbar`, with hue fractions as values. -/
def nodeTypeHue (nodesData : List Node) : List (JsVal × ℚ) :=
  let array := sortTypes (uniqueNodeTypes nodesData)
  hueReduce array.length [] 0 array

/-- The entries that the reduction adds for an array of distinct node types,
from position `ordinal`. -/
def hueList (length : Nat) : Nat → List JsVal → List (JsVal × ℚ)
  | _, [] => []
  | ordinal, nodeType :: rest =>
    (nodeType, (ordinal : ℚ) / (length : ℚ)) :: hueList length (ordinal + 1) rest

/-! ## The live nodes of the specification -/

/-- Rows without a primary column. -/
def noPrimaryCsv : List RawRow := [[("other_node", "Bob"), ("other_node_type", "Person")]]

/-! ## normaliseCSV: forward fill -/

theorem fillRow_some (p : Row) (row : RawRow) :
    fillRow (some p) row = some (row.map (fillCell p)) := by
  induction row with
  | nil => rfl
  | cons e rest ih =>
    obtain ⟨k, v⟩ := e
    by_cases hv : v = "" <;> simp [fillRow, fillCell, hv, ih]

theorem fillRow_none (p : Row) (row : RawRow) (h : ∀ e ∈ row, e.2 ≠ "") :
    fillRow none row = some (row.map (fillCell p)) := by
  induction row with
  | nil => rfl
  | cons e rest ih =>
    obtain ⟨k, v⟩ := e
    have hv : v ≠ "" := h (k, v) (List.mem_cons_self _ _)
    have ih1 := ih (fun e he => h e (List.mem_cons_of_mem _ he))
    simp [fillRow, fillCell, hv, ih1]

theorem normaliseFrom_last (rest : List RawRow) :
    ∀ (acc : List Row) (p : Row), acc.getLast? = some p →
      normaliseFrom acc rest = some (acc ++ fillFrom p rest) := by
  induction rest with
  | nil => intro acc p _; simp [normaliseFrom, fillFrom]
  | cons row rest ih =>
    intro acc p hp
    have h := ih (acc ++ [row.map (fillCell p)]) (row.map (fillCell p)) (List.getLast?_concat _)
    simp only [normaliseFrom, hp, fillRow_some, h, fillFrom]
    simp

theorem normaliseCSV_eq_fillFrom (csv : List RawRow)
    (h : ∀ row, csv.head? = some row → ∀ e ∈ row, e.2 ≠ "") :
    normaliseCSV csv = some (fillFrom [] csv) := by
  cases csv with
  | nil => rfl
  | cons row rest =>
    have h0 := fillRow_none [] row (h row rfl)
    have h1 := normaliseFrom_last rest [row.map (fillCell [])] (row.map (fillCell [])) rfl
    simp only [normaliseCSV, normaliseFrom, List.getLast?_nil, h0, List.nil_append, h1, fillFrom]
    simp

theorem fillFrom_length (csv : List RawRow) : ∀ p, (fillFrom p csv).length = csv.length := by
  induction csv with
  | nil => intro p; rfl
  | cons row rest ih => intro p; simp [fillFrom, ih]

theorem lookup_map_fillCell (p : Row) (k : String) (row : RawRow) :
    (row.map (fillCell p)).lookup k = (row.lookup k).map
      (fun v => if v = "" then getProp p k else .str (normaliseValue v)) := by
  induction row with
  | nil => rfl
  | cons e rest ih =>
    obtain ⟨k1, v⟩ := e
    by_cases hk : k = k1
    · subst hk
      simp [fillCell, List.lookup_cons]
    · have hb : (k == k1) = false := by simpa using hk
      simp [fillCell, List.lookup_cons, hb, ih]

theorem mem_of_lookup {β : Type} (row : List (String × β)) (k : String) (v : β)
    (h : row.lookup k = some v) : (k, v) ∈ row := by
  induction row with
  | nil => simp at h
  | cons e rest ih =>
    obtain ⟨k1, v1⟩ := e
    by_cases hk : k = k1
    · subst hk
      simp [List.lookup_cons] at h
      simp [h]
    · have hb : (k == k1) = false := by simpa using hk
      simp [List.lookup_cons, hb] at h
      exact List.mem_cons_of_mem _ (ih h)

theorem lookup_of_mem_nodup {β : Type} (row : List (String × β)) (k : String) (v : β)
    (hn : (row.map Prod.fst).Nodup) (h : (k, v) ∈ row) : row.lookup k = some v := by
  induction row with
  | nil => simp at h
  | cons e rest ih =>
    obtain ⟨k1, v1⟩ := e
    simp only [List.map_cons, List.nodup_cons] at hn
    rcases List.mem_cons.1 h with h1 | h1
    · cases h1
      simp [List.lookup_cons]
    · have hk : k ≠ k1 := by
        rintro rfl
        exact hn.1 (List.mem_map.2 ⟨(k, v), h1, rfl⟩)
      have hb : (k == k1) = false := by simpa using hk
      simp [List.lookup_cons, hb, ih hn.2 h1]

theorem lookup_isSome_of_mem_keys {β : Type} (row : List (String × β)) (k : String)
    (h : k ∈ row.map Prod.fst) : ∃ v, row.lookup k = some v := by
  induction row with
  | nil => simp at h
  | cons e rest ih =>
    obtain ⟨k1, v1⟩ := e
    by_cases hk : k = k1
    · subst hk
      exact ⟨v1, by simp [List.lookup_cons]⟩
    · have hb : (k == k1) = false := by simpa using hk
      have h1 : k ∈ rest.map Prod.fst := by
        simpa [hk] using h
      obtain ⟨v, hv⟩ := ih h1
      exact ⟨v, by simp [List.lookup_cons, hb, hv]⟩

theorem mem_keys_of_lookup {β : Type} (row : List (String × β)) (k : String) (v : β)
    (h : row.lookup k = some v) : k ∈ row.map Prod.fst :=
  List.mem_map.2 ⟨(k, v), mem_of_lookup row k v h, rfl⟩

theorem getProp_ne_blank (p : Row) (k : String) (h : ∀ e ∈ p, e.2 ≠ JsVal.str "") :
    getProp p k ≠ JsVal.str "" := by
  unfold getProp
  cases hl : p.lookup k with
  | none => simp
  | some v => exact h (k, v) (mem_of_lookup p k v hl)

theorem collapseChars_ne_nil (c : Char) (cs : List Char) :
    collapseChars false (c :: cs) ≠ [] := by
  by_cases h : isWhiteSpace c = true <;> simp [collapseChars, h]

theorem trimChars_ne_nil (cs : List Char) (c : Char) (hc : c ∈ cs)
    (hw : isWhiteSpace c = false) : trimChars cs ≠ [] := by
  intro h
  have h1 : (cs.dropWhile isWhiteSpace).reverse.dropWhile isWhiteSpace = [] := by
    simpa [trimChars] using h
  rw [List.dropWhile_eq_nil_iff] at h1
  have h2 : cs.dropWhile isWhiteSpace ≠ [] := by
    intro h3
    rw [List.dropWhile_eq_nil_iff] at h3
    have := h3 c hc
    simp [hw] at this
  have h4 := List.head_dropWhile_not isWhiteSpace cs h2
  have h5 := h1 ((cs.dropWhile isWhiteSpace).head h2) (by simp [List.head_mem])
  simp [h4] at h5

theorem normaliseValue_ne_empty (value : String) (c : Char) (hc : c ∈ value.data)
    (hw : isWhiteSpace c = false) : normaliseValue value ≠ "" := by
  intro h
  have h1 : (normaliseValue value).data = [] := by rw [h]
  have h2 := trimChars_ne_nil value.data c hc hw
  cases ht : trimChars value.data with
  | nil => exact h2 ht
  | cons a l =>
    simp only [normaliseValue, ht] at h1
    exact collapseChars_ne_nil a l h1


theorem fillFrom_no_blank (csv : List RawRow)
    (hspace : ∀ row ∈ csv, ∀ e ∈ row, e.2 ≠ "" → ∃ c ∈ e.2.data, isWhiteSpace c = false) :
    ∀ p : Row, (∀ e ∈ p, e.2 ≠ JsVal.str "") →
      ∀ row ∈ fillFrom p csv, ∀ e ∈ row, e.2 ≠ JsVal.str "" := by
  induction csv with
  | nil => intro p _ row hrow; simp [fillFrom] at hrow
  | cons r rest ih =>
    intro p hp row hrow
    have hnew : ∀ e ∈ r.map (fillCell p), e.2 ≠ JsVal.str "" := by
      intro e he
      obtain ⟨e0, he0, rfl⟩ := List.mem_map.1 he
      by_cases hv : e0.2 = ""
      · simpa [fillCell, hv] using getProp_ne_blank p e0.1 hp
      · obtain ⟨c, hc, hw⟩ := hspace r (List.mem_cons_self _ _) e0 he0 hv
        have := normaliseValue_ne_empty e0.2 c hc hw
        simpa [fillCell, hv] using this
    rcases List.mem_cons.1 hrow with h | h
    · subst h
      exact hnew
    · exact ih (fun row hr => hspace row (List.mem_cons_of_mem _ hr)) _ hnew row h

theorem fillFrom_cells (cols : List String) (csv : List RawRow)
    (hrows : ∀ row ∈ csv, row.map Prod.fst = cols) :
    ∀ (p : Row) (i : Nat) (k : String), rawCell csv i k = some "" →
      (∃ j v, j < i ∧ rawCell csv j k = some v ∧ v ≠ "" ∧
          (∀ m, j < m → m < i → rawCell csv m k = some "") ∧
          cell (fillFrom p csv) i k = some (JsVal.str (normaliseValue v))) ∨
      ((∀ m, m < i → rawCell csv m k = some "") ∧
          cell (fillFrom p csv) i k = some (getProp p k)) := by
  induction csv with
  | nil => intro p i k h; simp [rawCell] at h
  | cons r rest ih =>
    intro p i k h
    have hrest : ∀ row ∈ rest, row.map Prod.fst = cols :=
      fun row hr => hrows row (List.mem_cons_of_mem _ hr)
    cases i with
    | zero =>
      right
      refine ⟨fun m hm => absurd hm (Nat.not_lt_zero m), ?_⟩
      have h0 : r.lookup k = some "" := by simpa [rawCell] using h
      simp [cell, fillFrom, lookup_map_fillCell, h0]
    | succ i =>
      have hi : rawCell rest i k = some "" := by simpa [rawCell] using h
      have hk : k ∈ cols := by
        unfold rawCell at hi
        cases hri : rest[i]? with
        | none => simp [hri] at hi
        | some ri =>
          simp only [hri, Option.some_bind] at hi
          have hmem : ri ∈ rest := List.getElem?_mem hri
          rw [← hrest ri hmem]
          exact mem_keys_of_lookup ri k "" hi
      obtain ⟨v0, hv0⟩ : ∃ v, r.lookup k = some v := by
        apply lookup_isSome_of_mem_keys
        rw [hrows r (List.mem_cons_self _ _)]
        exact hk
      have hshift : ∀ c, cell (fillFrom p (r :: rest)) (i + 1) k = c ↔
          cell (fillFrom (r.map (fillCell p)) rest) i k = c := by
        intro c; simp [cell, fillFrom]
      rcases ih hrest (r.map (fillCell p)) i k hi with ⟨j, v, hj, hjv, hv, hmid, hc⟩ | ⟨hall, hc⟩
      · left
        refine ⟨j + 1, v, Nat.succ_lt_succ hj, by simpa [rawCell] using hjv, hv, ?_, (hshift _).2 hc⟩
        intro m hm1 hm2
        cases m with
        | zero => omega
        | succ m =>
          have := hmid m (by omega) (by omega)
          simpa [rawCell] using this
      · by_cases hb : v0 = ""
        · right
          subst hb
          refine ⟨?_, ?_⟩
          · intro m hm
            cases m with
            | zero => simpa [rawCell] using hv0
            | succ m =>
              have := hall m (by omega)
              simpa [rawCell] using this
          · rw [hshift, hc]
            simp [getProp, lookup_map_fillCell, hv0]
        · left
          refine ⟨0, v0, Nat.succ_pos _, by simpa [rawCell] using hv0, hb, ?_, ?_⟩
          · intro m hm1 hm2
            cases m with
            | zero => omega
            | succ m =>
              have := hall m (by omega)
              simpa [rawCell] using this
          · rw [hshift, hc]
            simp [getProp, lookup_map_fillCell, hv0, hb]

/-- C1 (amended): for rows with the same distinct columns, in which each
empty-string cell has an earlier row supplying a value in the same column and
no non-empty cell consists of whitespace only, `normaliseCSV` returns as many
rows, none of whose cells is the empty string, and every cell that was empty
in the input holds the trimmed, whitespace-collapsed form of the most recent
preceding non-blank value of its column. -/
theorem normaliseCSV_forward_fill (cols : List String) (csv : List RawRow)
    (hcols : cols.Nodup) (hrows : ∀ row ∈ csv, row.map Prod.fst = cols)
    (hprior : ∀ i k, rawCell csv i k = some "" →
      ∃ j v, j < i ∧ rawCell csv j k = some v ∧ v ≠ "")
    (hspace : ∀ row ∈ csv, ∀ e ∈ row, e.2 ≠ "" → ∃ c ∈ e.2.data, isWhiteSpace c = false) :
    ∃ out, normaliseCSV csv = some out ∧ out.length = csv.length ∧
      (∀ row ∈ out, ∀ e ∈ row, e.2 ≠ JsVal.str "") ∧
      ∀ i k, rawCell csv i k = some "" →
        ∃ j v, j < i ∧ rawCell csv j k = some v ∧ v ≠ "" ∧
          (∀ m, j < m → m < i → rawCell csv m k = some "") ∧
          cell out i k = some (JsVal.str (normaliseValue v)) := by
  have hfirst : ∀ k, rawCell csv 0 k ≠ some "" := by
    intro k h
    obtain ⟨j, _, hj, _⟩ := hprior 0 k h
    exact Nat.not_lt_zero j hj
  have hhead : ∀ row, csv.head? = some row → ∀ e ∈ row, e.2 ≠ "" := by
    intro row hrow e he hv
    cases csv with
    | nil => simp at hrow
    | cons r rest =>
      have hr : r = row := by simpa using hrow
      subst hr
      have hn : (r.map Prod.fst).Nodup := by
        rw [hrows r (List.mem_cons_self _ _)]; exact hcols
      have hl := lookup_of_mem_nodup r e.1 e.2 hn he
      apply hfirst e.1
      simp [rawCell, hl, hv]
  refine ⟨fillFrom [] csv, normaliseCSV_eq_fillFrom csv hhead, fillFrom_length csv [],
    fillFrom_no_blank csv hspace [] (by simp), ?_⟩
  intro i k h
  rcases fillFrom_cells cols csv hrows [] i k h with hgood | ⟨hall, _⟩
  · exact hgood
  · exfalso
    cases i with
    | zero => exact hfirst k h
    | succ i => exact hfirst k (hall 0 (Nat.succ_pos _))

/-- C1 (witness): the rows of the specification's example, with a padded
first cell, satisfy the hypotheses and so are forward filled. -/
theorem normaliseCSV_forward_fill_witness :
    ∃ out, normaliseCSV acmeCsv = some out ∧ out.length = acmeCsv.length ∧
      (∀ row ∈ out, ∀ e ∈ row, e.2 ≠ JsVal.str "") ∧
      ∀ i k, rawCell acmeCsv i k = some "" →
        ∃ j v, j < i ∧ rawCell acmeCsv j k = some v ∧ v ≠ "" ∧
          (∀ m, j < m → m < i → rawCell acmeCsv m k = some "") ∧
          cell out i k = some (JsVal.str (normaliseValue v)) :=
  normaliseCSV_forward_fill ["Company", "other_node", "other_node_type"] acmeCsv
    (by decide) (by decide)
    (by
      intro i k h
      match i with
      | 0 =>
        exfalso
        simp only [rawCell, acmeCsv, List.getElem?_cons_zero, Option.some_bind,
          List.lookup_cons, List.lookup_nil] at h
        repeat' split at h
        all_goals simp at h
      | 1 =>
        refine ⟨0, " Acme  Ltd", Nat.zero_lt_one, ?_, by decide⟩
        simp only [rawCell, acmeCsv, List.getElem?_cons_succ, List.getElem?_cons_zero,
          Option.some_bind, List.lookup_cons, List.lookup_nil] at h ⊢
        repeat' split at h
        all_goals first
          | (simp at h; done)
          | simp_all
      | i + 2 => simp [rawCell, acmeCsv] at h)
    (by decide)

/-- C1 (counterexample): a cell holding one space is not an empty-string
cell, so the hypothesis of the claim holds, yet the cell is the empty string
in the rows that `normaliseCSV` returns. -/
theorem normaliseCSV_blank_counterexample :
    (∀ i k, rawCell blankOnlyCsv i k = some "" →
        ∃ j v, j < i ∧ rawCell blankOnlyCsv j k = some v ∧ v ≠ "") ∧
      ∃ out, normaliseCSV blankOnlyCsv = some out ∧
        ∃ row ∈ out, ∃ e ∈ row, e.2 = JsVal.str "" := by
  refine ⟨?_, [[("Company", JsVal.str "")]], by decide, _, List.mem_singleton.2 rfl, _,
    List.mem_singleton.2 rfl, rfl⟩
  intro i k h
  exfalso
  match i with
  | 0 =>
    simp only [rawCell, blankOnlyCsv, List.getElem?_cons_zero, Option.some_bind,
      List.lookup_cons, List.lookup_nil] at h
    split at h <;> simp at h
  | i + 1 => simp [rawCell, blankOnlyCsv] at h

/-! ## nodes: degrees -/

theorem getProp_setProp_same (row : Row) (k : String) (v : JsVal) :
    getProp (setProp row k v) k = v := by
  induction row with
  | nil => simp [setProp, getProp, List.lookup_cons]
  | cons e rest ih =>
    obtain ⟨k1, v1⟩ := e
    by_cases hk : k1 = k
    · simp [setProp, hk, getProp, List.lookup_cons]
    · have hb : (k == k1) = false := by simpa using fun h : k = k1 => hk h.symm
      simp only [setProp, hk, if_false]
      simpa [getProp, List.lookup_cons, hb] using ih

theorem getProp_setProp_other (row : Row) (k k2 : String) (v : JsVal) (h : k2 ≠ k) :
    getProp (setProp row k v) k2 = getProp row k2 := by
  induction row with
  | nil =>
    have hb : (k2 == k) = false := by simpa using h
    simp [setProp, getProp, List.lookup_cons, hb]
  | cons e rest ih =>
    obtain ⟨k1, v1⟩ := e
    by_cases hk : k1 = k
    · subst hk
      have hb : (k2 == k1) = false := by simpa using h
      simp [setProp, getProp, List.lookup_cons, hb]
    · simp only [setProp, hk, if_false]
      by_cases hk2 : k2 = k1
      · subst hk2
        simp [getProp, List.lookup_cons]
      · have hb : (k2 == k1) = false := by simpa using hk2
        simpa [getProp, List.lookup_cons, hb] using ih

theorem countStep_nil (keyOf : Row → JsVal) (row : Row) :
    countStep keyOf [] row =
      ([(keyOf row, setProp row "degree" (.num 1))], setProp row "degree" (.num 1)) := by
  simp [countStep, mapGet, mapSet]

theorem countStep_cons_eq (keyOf : Row → JsVal) (k : JsVal) (r : Row) (rest : RowMap) (row : Row)
    (h : k = keyOf row) :
    countStep keyOf ((k, r) :: rest) row =
      ((k, setProp row "degree" (jsPlus (.num 1) (getProp r "degree"))) :: rest,
        setProp row "degree" (jsPlus (.num 1) (getProp r "degree"))) := by
  subst h
  simp [countStep, mapGet, mapSet]

theorem countStep_cons_ne (keyOf : Row → JsVal) (k : JsVal) (r : Row) (rest : RowMap) (row : Row)
    (h : k ≠ keyOf row) :
    countStep keyOf ((k, r) :: rest) row =
      ((k, r) :: (countStep keyOf rest row).1, (countStep keyOf rest row).2) := by
  simp [countStep, mapGet, mapSet, h]

theorem countStep_snd (keyOf : Row → JsVal) (map : RowMap) (row : Row) :
    ∃ v, (countStep keyOf map row).2 = setProp row "degree" v := by
  cases h : mapGet map (keyOf row) with
  | none => exact ⟨.num 1, by simp only [countStep, h]⟩
  | some previous =>
    exact ⟨jsPlus (.num 1) (getProp previous "degree"), by simp only [countStep, h]⟩

/-- A property of the state of `countRows` and of the rows reduced so far
that holds initially and is kept by each call of the reducer holds finally. -/
theorem countRows_induction (keyOf : Row → JsVal) (I : RowMap × List Row → List Row → Prop)
    (h0 : I ([], []) [])
    (hstep : ∀ state done row, I state done →
      I ((countStep keyOf state.1 row).1, state.2 ++ [(countStep keyOf state.1 row).2])
        (done ++ [row]))
    (csv : List Row) : I (countRows keyOf csv) csv := by
  have key : ∀ (rest : List Row) (state : RowMap × List Row) (done : List Row), I state done →
      I (rest.foldl (fun state row =>
        ((countStep keyOf state.1 row).1, state.2 ++ [(countStep keyOf state.1 row).2])) state)
        (done ++ rest) := by
    intro rest
    induction rest with
    | nil => intro state done h; simpa using h
    | cons row rest ih =>
      intro state done h
      have := ih _ _ (hstep state done row h)
      simpa using this
  simpa [countRows] using key csv ([], []) [] h0

theorem countStep_degrees (keyOf : Row → JsVal) (row : Row) :
    ∀ (map : RowMap) (counts : List Nat), degrees map = counts.map JsVal.num →
      ∃ counts1 : List Nat, degrees (countStep keyOf map row).1 = counts1.map JsVal.num ∧
        counts1.sum = counts.sum + 1 := by
  intro map
  induction map with
  | nil =>
    intro counts _
    refine ⟨[1], ?_, ?_⟩
    · simp [countStep_nil, degrees, getProp_setProp_same]
    · cases counts with
      | nil => simp
      | cons c cs => simp [degrees] at *
  | cons e rest ih =>
    obtain ⟨k, r⟩ := e
    intro counts hc
    cases counts with
    | nil => simp [degrees] at hc
    | cons c cs =>
      have hr : getProp r "degree" = JsVal.num c := by
        simpa [degrees] using (List.cons_eq_cons.1 hc).1
      have hrest : degrees rest = cs.map JsVal.num := (List.cons_eq_cons.1 hc).2
      by_cases hk : k = keyOf row
      · refine ⟨(1 + c) :: cs, ?_, ?_⟩
        · rw [countStep_cons_eq keyOf k r rest row hk]
          simp only [degrees, List.map_cons, getProp_setProp_same, hr, jsPlus]
          exact congrArg _ hrest
        · simp; omega
      · obtain ⟨cs1, h1, h2⟩ := ih cs hrest
        refine ⟨c :: cs1, ?_, ?_⟩
        · rw [countStep_cons_ne keyOf k r rest row hk]
          simp only [degrees, List.map_cons, hr]
          exact congrArg _ h1
        · simp [h2]; omega

theorem countRows_degrees (keyOf : Row → JsVal) (csv : List Row) :
    ∃ counts : List Nat, degrees (countRows keyOf csv).1 = counts.map JsVal.num ∧
      counts.sum = csv.length := by
  refine countRows_induction keyOf
    (fun state done => ∃ counts : List Nat, degrees state.1 = counts.map JsVal.num ∧
      counts.sum = done.length) ⟨[], rfl, rfl⟩ ?_ csv
  rintro state done row ⟨counts, h1, h2⟩
  obtain ⟨counts1, h3, h4⟩ := countStep_degrees keyOf row state.1 counts h1
  exact ⟨counts1, h3, by simp [h4, h2]⟩

theorem countRows_length (keyOf : Row → JsVal) (csv : List Row) :
    (countRows keyOf csv).2.length = csv.length := by
  refine countRows_induction keyOf (fun state done => state.2.length = done.length) rfl ?_ csv
  intro state done row h
  simp [h]

theorem foldl_jsPlus_num (counts : List Nat) :
    ∀ a : Nat, (counts.map JsVal.num).foldl jsPlus (.num a) = .num (a + counts.sum) := by
  induction counts with
  | nil => intro a; simp
  | cons c cs ih => intro a; simp [jsPlus, ih, Nat.add_assoc]

theorem degreeSum_uniquePrimaryNodes (csv : List Row) (column : JsVal) :
    degreeSum (uniquePrimaryNodes csv column) = .num csv.length := by
  obtain ⟨counts, h1, h2⟩ := countRows_degrees (fun row => getProp row (toStr column)) csv
  have h : (uniquePrimaryNodes csv column).map (fun node => node.degree) =
      degrees (countRows (fun row => getProp row (toStr column)) csv).1 := by
    simp [uniquePrimaryNodes, degrees, primaryNode, List.map_map, Function.comp_def]
  rw [degreeSum, h, h1, foldl_jsPlus_num, h2, Nat.zero_add]

theorem degreeSum_uniqueOtherNodes (csv : List Row) (column : JsVal) :
    degreeSum (uniqueOtherNodes csv column) = .num csv.length := by
  obtain ⟨counts, h1, h2⟩ := countRows_degrees (fun row => JsVal.str (otherKey row))
    (countRows (fun row => getProp row (toStr column)) csv).2
  have h : (uniqueOtherNodes csv column).map (fun node => node.degree) =
      degrees (countRows (fun row => JsVal.str (otherKey row))
        (countRows (fun row => getProp row (toStr column)) csv).2).1 := by
    simp [uniqueOtherNodes, degrees, otherNode, List.map_map, Function.comp_def]
  rw [degreeSum, h, h1, foldl_jsPlus_num, h2, Nat.zero_add, countRows_length]

theorem primary_uniquePrimaryNodes (csv : List Row) (column : JsVal) :
    ∀ node ∈ uniquePrimaryNodes csv column, node.primary = true := by
  intro node h
  simp only [uniquePrimaryNodes, List.mem_map] at h
  obtain ⟨row, _, rfl⟩ := h
  rfl

theorem primary_uniqueOtherNodes (csv : List Row) (column : JsVal) :
    ∀ node ∈ uniqueOtherNodes csv column, node.primary = false := by
  intro node h
  simp only [uniqueOtherNodes, List.mem_map] at h
  obtain ⟨row, _, rfl⟩ := h
  rfl

/-- C2: for every row sequence and every primary column, the degrees of the
primary nodes returned by `nodes` sum to the number of rows, and so do the
degrees of the nodes that are not primary. -/
theorem nodes_degree_conservation (csv : List Row) (column : JsVal) :
    degreeSum ((nodes csv column).filter (fun node => node.primary)) = .num csv.length ∧
      degreeSum ((nodes csv column).filter (fun node => !node.primary)) = .num csv.length := by
  have hp := primary_uniquePrimaryNodes csv column
  have ho := primary_uniqueOtherNodes csv column
  have h1 : (nodes csv column).filter (fun node => node.primary) =
      uniquePrimaryNodes csv column := by
    rw [nodes, List.filter_append, List.filter_eq_self.2 hp, List.filter_eq_nil_iff.2]
    · simp
    · intro node h; simp [ho node h]
  have h2 : (nodes csv column).filter (fun node => !node.primary) =
      uniqueOtherNodes csv column := by
    rw [nodes, List.filter_append, List.filter_eq_nil_iff.2, List.filter_eq_self.2]
    · simp
    · intro node h; simp [ho node h]
    · intro node h; simp [hp node h]
  rw [h1, h2]
  exact ⟨degreeSum_uniquePrimaryNodes csv column, degreeSum_uniqueOtherNodes csv column⟩

/-! ## nodes: identifiers -/

theorem mem_mapSet (map : RowMap) (key : JsVal) (row : Row) (e : JsVal × Row)
    (h : e ∈ mapSet map key row) : e = (key, row) ∨ e ∈ map := by
  induction map with
  | nil => left; simpa [mapSet] using h
  | cons e1 rest ih =>
    obtain ⟨k, r⟩ := e1
    by_cases hk : k = key
    · simp only [mapSet, hk, if_true, List.mem_cons] at h
      rcases h with h | h
      · exact Or.inl h
      · exact Or.inr (List.mem_cons_of_mem _ h)
    · simp only [mapSet, hk, if_false, List.mem_cons] at h
      rcases h with h | h
      · exact Or.inr (h ▸ List.mem_cons_self _ _)
      · rcases ih h with h1 | h1
        · exact Or.inl h1
        · exact Or.inr (List.mem_cons_of_mem _ h1)

theorem keys_mapSet (map : RowMap) (key : JsVal) (row : Row) :
    (mapSet map key row).map Prod.fst =
      if key ∈ map.map Prod.fst then map.map Prod.fst else map.map Prod.fst ++ [key] := by
  induction map with
  | nil => simp [mapSet]
  | cons e1 rest ih =>
    obtain ⟨k, r⟩ := e1
    by_cases hk : k = key
    · simp [mapSet, hk]
    · have hk1 : ¬ key = k := fun h => hk h.symm
      simp only [mapSet, hk, if_false, List.map_cons, ih, List.mem_cons, hk1, false_or]
      split <;> simp

theorem countStep_fst (keyOf : Row → JsVal) (map : RowMap) (row : Row) :
    (countStep keyOf map row).1 = mapSet map (keyOf row) (countStep keyOf map row).2 := rfl

theorem countRows_inv (keyOf : Row → JsVal) (csv : List Row) :
    CountInv keyOf (countRows keyOf csv) csv := by
  refine countRows_induction keyOf (CountInv keyOf) ?_ ?_ csv
  · exact ⟨by simp, by simp, by simp, by simp, by simp⟩
  · rintro state done row ⟨hA, hB, hC, hD, hE⟩
    obtain ⟨v, hv⟩ := countStep_snd keyOf state.1 row
    have hkeys := keys_mapSet state.1 (keyOf row) (countStep keyOf state.1 row).2
    refine ⟨?_, ?_, ?_, ?_, ?_⟩
    · intro e he
      simp only [countStep_fst] at he
      rcases mem_mapSet _ _ _ _ he with h | h
      · exact ⟨row, by simp, v, by simp [h, hv], by simp [h]⟩
      · obtain ⟨row0, h0, v0, h1, h2⟩ := hA e h
        exact ⟨row0, by simp [h0], v0, h1, h2⟩
    · simp only [countStep_fst, hkeys]
      split
      · exact hB
      · next hn =>
        exact List.Nodup.append hB (List.nodup_singleton _) (by simpa using hn)
    · intro row0 h0
      simp only [countStep_fst, hkeys]
      rcases List.mem_append.1 h0 with h | h
      · have := hC row0 h
        split <;> simp [this]
      · have h1 : row0 = row := by simpa using h
        subst h1
        split
        · assumption
        · simp
    · intro r hr
      rcases List.mem_append.1 hr with h | h
      · obtain ⟨row0, h0, v0, h1⟩ := hD r h
        exact ⟨row0, by simp [h0], v0, h1⟩
      · have h1 : r = (countStep keyOf state.1 row).2 := by simpa using h
        exact ⟨row, by simp, v, by rw [h1, hv]⟩
    · intro row0 h0
      rcases List.mem_append.1 h0 with h | h
      · obtain ⟨r, hr, v0, h1⟩ := hE row0 h
        exact ⟨r, by simp [hr], v0, h1⟩
      · have h1 : row0 = row := by simpa using h
        subst h1
        exact ⟨_, by simp, v, hv⟩

theorem otherKey_setProp (row : Row) (v : JsVal) :
    otherKey (setProp row "degree" v) = otherKey row := by
  simp [otherKey, getProp_setProp_other row "degree" "other_node_type" v (by decide),
    getProp_setProp_other row "degree" "other_node" v (by decide)]

theorem getProp_type_setProp (row : Row) (v : JsVal) :
    getProp (setProp row "degree" v) "other_node_type" = getProp row "other_node_type" :=
  getProp_setProp_other row "degree" "other_node_type" v (by decide)

theorem hasSeparator_cons (c : Char) (cs : List Char) (h : hasSeparator (c :: cs) = false) :
    hasSeparator cs = false := by
  simp only [hasSeparator, Bool.or_eq_false_iff] at h
  exact h.2

theorem separator_unique (p : List Char) :
    ∀ (t n o : List Char), hasSeparator p = false → hasSeparator t = false →
      p ++ ':' :: ' ' :: n = t ++ ':' :: ' ' :: o → p = t := by
  induction p with
  | nil =>
    intro t n o _ ht h
    cases t with
    | nil => rfl
    | cons a t =>
      exfalso
      simp only [List.nil_append, List.cons_append, List.cons.injEq] at h
      obtain ⟨ha, h⟩ := h
      cases t with
      | nil => simp at h
      | cons b t =>
        simp only [List.cons_append, List.cons.injEq] at h
        simp [hasSeparator, ← ha, ← h.1] at ht
  | cons a p ih =>
    intro t n o hp ht h
    cases t with
    | nil =>
      exfalso
      simp only [List.nil_append, List.cons_append, List.cons.injEq] at h
      obtain ⟨ha, h⟩ := h
      cases p with
      | nil => simp at h
      | cons b p =>
        simp only [List.cons_append, List.cons.injEq] at h
        simp [hasSeparator, ha, h.1] at hp
    | cons b t =>
      simp only [List.cons_append, List.cons.injEq] at h
      rw [h.1, ih t n o (hasSeparator_cons _ _ hp) (hasSeparator_cons _ _ ht) h.2]

theorem id_separator_unique (p t n o : String) (hp : hasSeparator p.data = false)
    (ht : hasSeparator t.data = false) (h : p ++ ": " ++ n = t ++ ": " ++ o) : p = t := by
  have h1 := congrArg String.data h
  simp only [String.data_append, List.append_assoc] at h1
  exact String.ext (separator_unique p.data t.data n.data o.data hp ht h1)

theorem id_name_unique (p n o : String) (h : p ++ ": " ++ n = p ++ ": " ++ o) : n = o := by
  have h1 := congrArg String.data h
  simp only [String.data_append, List.append_assoc] at h1
  exact String.ext (List.append_cancel_left (List.append_cancel_left h1))

theorem uniquePrimaryNodes_ids (csv : List Row) (column : JsVal)
    (hcolumn : toStr column ≠ "degree") :
    (uniquePrimaryNodes csv column).map (fun node => node.id) =
      ((countRows (fun row => getProp row (toStr column)) csv).1.map Prod.fst).map
        (fun key => toStr column ++ ": " ++ toStr key) := by
  obtain ⟨hA, _⟩ := countRows_inv (fun row => getProp row (toStr column)) csv
  simp only [uniquePrimaryNodes, List.map_map]
  apply List.map_congr_left
  intro e he
  obtain ⟨row, _, v, h1, h2⟩ := hA e he
  simp [primaryNode, h1, h2, getProp_setProp_other row "degree" (toStr column) v hcolumn]

theorem uniqueOtherNodes_ids (csv : List Row) (column : JsVal) :
    (uniqueOtherNodes csv column).map (fun node => node.id) =
      ((countRows (fun row => JsVal.str (otherKey row))
        (countRows (fun row => getProp row (toStr column)) csv).2).1.map Prod.fst).map toStr := by
  obtain ⟨hA, _⟩ := countRows_inv (fun row => JsVal.str (otherKey row))
    (countRows (fun row => getProp row (toStr column)) csv).2
  simp only [uniqueOtherNodes, List.map_map]
  apply List.map_congr_left
  intro e he
  obtain ⟨row, _, v, h1, h2⟩ := hA e he
  simp [otherNode, h1, h2, otherKey_setProp, toStr]

/-- The id of every other node is the key of a row of the CSV. -/
theorem uniqueOtherNodes_id_origin (csv : List Row) (column : JsVal) (i : String)
    (h : i ∈ (uniqueOtherNodes csv column).map (fun node => node.id)) :
    ∃ row ∈ csv, i = otherKey row := by
  obtain ⟨_, _, _, hD, _⟩ := countRows_inv (fun row => getProp row (toStr column)) csv
  obtain ⟨hA, _⟩ := countRows_inv (fun row => JsVal.str (otherKey row))
    (countRows (fun row => getProp row (toStr column)) csv).2
  rw [uniqueOtherNodes_ids] at h
  simp only [List.mem_map] at h
  obtain ⟨key, ⟨e, he, rfl⟩, rfl⟩ := h
  obtain ⟨row1, hrow1, _, _, h2⟩ := hA e he
  obtain ⟨row, hrow, v, h3⟩ := hD row1 hrow1
  exact ⟨row, hrow, by simp [h2, h3, otherKey_setProp, toStr]⟩

/-- C3 (amended): when the primary column is not called `degree`, every row
holds a string in the primary column, no `other_node_type` value equals the
primary column name, and neither the primary column name nor an
`other_node_type` value contains the separator `": "`, the node list returned
by `nodes` contains no two entries with the same id. -/
theorem nodes_id_unique (csv : List Row) (column : JsVal)
    (hcolumn : toStr column ≠ "degree")
    (hname : ∀ row ∈ csv, ∃ s, getProp row (toStr column) = JsVal.str s)
    (htype : ∀ row ∈ csv, toStr (getProp row "other_node_type") ≠ toStr column)
    (hsep : hasSeparator (toStr column).data = false)
    (hseps : ∀ row ∈ csv, hasSeparator (toStr (getProp row "other_node_type")).data = false) :
    ((nodes csv column).map (fun node => node.id)).Nodup := by
  obtain ⟨hA1, hB1, _⟩ := countRows_inv (fun row => getProp row (toStr column)) csv
  obtain ⟨hA2, hB2, _⟩ := countRows_inv (fun row => JsVal.str (otherKey row))
    (countRows (fun row => getProp row (toStr column)) csv).2
  have hkey1 : ∀ key ∈ (countRows (fun row => getProp row (toStr column)) csv).1.map Prod.fst,
      ∃ row ∈ csv, ∃ s, key = JsVal.str s ∧ getProp row (toStr column) = JsVal.str s := by
    intro key hkey
    obtain ⟨e, he, rfl⟩ := List.mem_map.1 hkey
    obtain ⟨row, hrow, _, _, h2⟩ := hA1 e he
    obtain ⟨s, hs⟩ := hname row hrow
    exact ⟨row, hrow, s, h2.trans hs, hs⟩
  have hkey2 : ∀ key ∈ (countRows (fun row => JsVal.str (otherKey row))
      (countRows (fun row => getProp row (toStr column)) csv).2).1.map Prod.fst,
      ∃ s, key = JsVal.str s := by
    intro key hkey
    obtain ⟨e, he, rfl⟩ := List.mem_map.1 hkey
    obtain ⟨row, _, _, _, h2⟩ := hA2 e he
    exact ⟨_, h2⟩
  rw [nodes, List.map_append, List.nodup_append]
  refine ⟨?_, ?_, ?_⟩
  · rw [uniquePrimaryNodes_ids csv column hcolumn]
    refine List.Nodup.map_on ?_ hB1
    intro x hx y hy hxy
    obtain ⟨_, _, s, rfl, _⟩ := hkey1 x hx
    obtain ⟨_, _, t, rfl, _⟩ := hkey1 y hy
    simp only [toStr] at hxy
    rw [id_name_unique _ _ _ hxy]
  · rw [uniqueOtherNodes_ids csv column]
    refine List.Nodup.map_on ?_ hB2
    intro x hx y hy hxy
    obtain ⟨s, rfl⟩ := hkey2 x hx
    obtain ⟨t, rfl⟩ := hkey2 y hy
    simp only [toStr] at hxy
    rw [hxy]
  · intro i hi1 hi2
    rw [uniquePrimaryNodes_ids csv column hcolumn] at hi1
    obtain ⟨key, hkey, rfl⟩ := List.mem_map.1 hi1
    obtain ⟨row, hrow, h⟩ := uniqueOtherNodes_id_origin csv column _ hi2
    exact htype row hrow
      (id_separator_unique _ _ _ _ hsep (hseps row hrow) h).symm

/-- C3 (witness): the rows of the specification's example have pairwise
distinct node ids. -/
theorem nodes_id_unique_witness :
    ((nodes acmeRows (.str "Company")).map (fun node => node.id)).Nodup :=
  nodes_id_unique acmeRows (.str "Company") (by decide)
    (by
      intro row hrow
      simp only [acmeRows, List.mem_cons, List.mem_singleton, List.not_mem_nil, or_false] at hrow
      rcases hrow with rfl | rfl <;> exact ⟨"Acme", by decide⟩)
    (by decide) (by decide) (by decide)

/-- C3 (counterexample): the rows `collidingCsv` are parsed into a model in
which no `other_node_type` value equals the primary column name `a`, and its
primary node and its other node both have the id `a: b: c`. -/
theorem nodes_id_collision_counterexample :
    ∃ data model, normaliseCSV collidingCsv = some data ∧
      primaryNodeColumnName data = some (.str "a") ∧
      parseData collidingCsv = some model ∧ model.2 = nodes data (.str "a") ∧
      (∀ row ∈ data, getProp row "other_node_type" ≠ .str "a") ∧
      ¬ (model.2.map (fun node => node.id)).Nodup :=
  ⟨[[("a", .str "b: c"), ("other_node", .str "c"), ("other_node_type", .str "a: b")]],
    ([⟨"a: b: c", "a: b: c"⟩],
      [⟨"a: b: c", .str "b: c", .str "a", true, .num 1⟩,
       ⟨"a: b: c", .str "c", .str "a: b", false, .num 1⟩]),
    by decide, by decide, by decide, by decide, by decide, by decide⟩

/-! ## links: endpoints -/

/-- When the primary column is not called `degree`, the source of every link
is the id of a primary node. -/
theorem link_source_primary (csv : List Row) (column : JsVal)
    (hcolumn : toStr column ≠ "degree") :
    ∀ link ∈ links csv column, ∃ node ∈ uniquePrimaryNodes csv column, node.id = link.source := by
  intro link hlink
  obtain ⟨row, hrow, rfl⟩ := List.mem_map.1 hlink
  obtain ⟨_, _, hC1, _⟩ := countRows_inv (fun row => getProp row (toStr column)) csv
  have h : toStr column ++ ": " ++ toStr (getProp row (toStr column)) ∈
      (uniquePrimaryNodes csv column).map (fun node => node.id) := by
    rw [uniquePrimaryNodes_ids csv column hcolumn]
    exact List.mem_map.2 ⟨_, hC1 row hrow, rfl⟩
  exact List.mem_map.1 h

/-- The target of every link is the id of an other node. -/
theorem link_target_other (csv : List Row) (column : JsVal) :
    ∀ link ∈ links csv column, ∃ node ∈ uniqueOtherNodes csv column, node.id = link.target := by
  intro link hlink
  obtain ⟨row, hrow, rfl⟩ := List.mem_map.1 hlink
  obtain ⟨_, _, _, _, hE1⟩ := countRows_inv (fun row => getProp row (toStr column)) csv
  obtain ⟨_, _, hC2, _⟩ := countRows_inv (fun row => JsVal.str (otherKey row))
    (countRows (fun row => getProp row (toStr column)) csv).2
  obtain ⟨r, hr, v, hv⟩ := hE1 row hrow
  have h : otherKey row ∈ (uniqueOtherNodes csv column).map (fun node => node.id) := by
    rw [uniqueOtherNodes_ids csv column]
    refine List.mem_map.2 ⟨_, hC2 r hr, ?_⟩
    simp [toStr, hv, otherKey_setProp]
  exact List.mem_map.1 h

/-- When the primary column is not called `degree`, every link returned by
`links` has a source and a target that are ids of nodes returned by `nodes`
for the same rows. -/
theorem links_endpoints_in_nodes (csv : List Row) (column : JsVal)
    (hcolumn : toStr column ≠ "degree") :
    ∀ link ∈ links csv column,
      (∃ node ∈ nodes csv column, node.id = link.source) ∧
      (∃ node ∈ nodes csv column, node.id = link.target) := by
  intro link hlink
  obtain ⟨n1, h1, e1⟩ := link_source_primary csv column hcolumn link hlink
  obtain ⟨n2, h2, e2⟩ := link_target_other csv column link hlink
  exact ⟨⟨n1, List.mem_append_left _ h1, e1⟩, ⟨n2, List.mem_append_right _ h2, e2⟩⟩

/-- A model built by `nodes` and `links` whose ids are pairwise distinct, the
primary column not being called `degree`, has primary nodes of one type, and
links from primary nodes to other nodes. -/
theorem built_model_links (csv : List Row) (column : JsVal)
    (hcolumn : toStr column ≠ "degree")
    (hids : ((nodes csv column).map (fun node => node.id)).Nodup) :
    (∀ link ∈ links csv column, ∀ n ∈ nodes csv column,
        n.id = link.source → n.primary = true) ∧
      (∀ link ∈ links csv column, ∀ n ∈ nodes csv column,
        n.id = link.target → n.primary = false) ∧
      (∀ n ∈ nodes csv column, ∀ m ∈ nodes csv column,
        n.primary = true → m.primary = true → n.type = m.type) := by
  have hinj : ∀ n ∈ nodes csv column, ∀ m ∈ nodes csv column, n.id = m.id → n = m :=
    fun n hn m hm h => List.inj_on_of_nodup_map hids hn hm h
  have htype : ∀ n ∈ nodes csv column, n.primary = true → n.type = column := by
    intro n hn hp
    rcases List.mem_append.1 hn with h | h
    · simp only [uniquePrimaryNodes, List.mem_map] at h
      obtain ⟨row, _, rfl⟩ := h
      rfl
    · rw [primary_uniqueOtherNodes csv column n h] at hp
      exact absurd hp (by decide)
  refine ⟨?_, ?_, ?_⟩
  · intro link hlink n hn h
    obtain ⟨p, hp, e⟩ := link_source_primary csv column hcolumn link hlink
    rw [hinj n hn p (List.mem_append_left _ hp) (h.trans e.symm)]
    exact primary_uniquePrimaryNodes csv column p hp
  · intro link hlink n hn h
    obtain ⟨p, hp, e⟩ := link_target_other csv column link hlink
    rw [hinj n hn p (List.mem_append_right _ hp) (h.trans e.symm)]
    exact primary_uniqueOtherNodes csv column p hp
  · intro n hn m hm hnp hmp
    rw [htype n hn hnp, htype m hm hmp]

/-- C4 (failing input): for the single row of a CSV whose primary column is
called `degree`, `parseData` builds a link whose source `degree: Acme` is the
id of no node, the primary node having been given the id `degree: 1`. -/
theorem links_source_missing_degree_column :
    parseData degreeCsv =
        some ([⟨"degree: Acme", "Person: Bob"⟩],
          [⟨"degree: 1", .num 1, .str "degree", true, .num 1⟩,
           ⟨"Person: Bob", .str "Bob", .str "Person", false, .num 1⟩]) ∧
      ∃ model, parseData degreeCsv = some model ∧
        ∃ link ∈ model.1, ∀ node ∈ model.2, node.id ≠ link.source :=
  ⟨by decide,
    ([⟨"degree: Acme", "Person: Bob"⟩],
      [⟨"degree: 1", .num 1, .str "degree", true, .num 1⟩,
       ⟨"Person: Bob", .str "Bob", .str "Person", false, .num 1⟩]),
    by decide, ⟨"degree: Acme", "Person: Bob"⟩, by decide, by decide⟩

/-! ## Node selection -/

theorem mem_selectedNodesData (nodesData : List Node) (formData : FormData) (node : Node) :
    node ∈ selectedNodesData nodesData formData ↔
      node ∈ nodesData ∧
        ((formData.get (toStr node.type ++ "-mode") = some "selected" ∧
            ∃ value ∈ formData.getAll (toStr node.type), JsVal.str value = node.name) ∨
          formData.get (toStr node.type ++ "-mode") = some "all") := by
  simp only [selectedNodesData, List.mem_filter]
  constructor
  · rintro ⟨h1, h2⟩
    refine ⟨h1, ?_⟩
    by_cases hs : formData.get (toStr node.type ++ "-mode") = some "selected"
    · left
      refine ⟨hs, ?_⟩
      simpa [hs] using h2
    · by_cases ha : formData.get (toStr node.type ++ "-mode") = some "all"
      · exact Or.inr ha
      · simp [hs, ha] at h2
  · rintro ⟨h1, h2⟩
    refine ⟨h1, ?_⟩
    rcases h2 with ⟨hs, h3⟩ | ha
    · simpa [hs] using h3
    · simp [ha]

theorem mem_linkNeighbours (selectedNodes : List Node) (link : Link) (x : String) :
    x ∈ linkNeighbours selectedNodes link ↔
      ((∃ s ∈ selectedNodes, s.id = link.source) ∧ x = link.target) ∨
      ((∃ s ∈ selectedNodes, s.id = link.target) ∧ x = link.source) := by
  have e1 : selectedNodes.any (fun s => decide (s.id = link.source)) = true ↔
      ∃ s ∈ selectedNodes, s.id = link.source := by simp
  have e2 : selectedNodes.any (fun s => decide (s.id = link.target)) = true ↔
      ∃ s ∈ selectedNodes, s.id = link.target := by simp
  unfold linkNeighbours
  rw [List.mem_append]
  by_cases h1 : selectedNodes.any (fun s => decide (s.id = link.source)) = true <;>
    by_cases h2 : selectedNodes.any (fun s => decide (s.id = link.target)) = true <;>
    simp only [h1, h2, if_true, if_false, List.mem_singleton, List.not_mem_nil, ← e1, ← e2,
      true_and, false_and, Bool.false_eq_true]

theorem neighbours_step (selectedNodes : List Node) (identifiers : List String) (link : Link) :
    (let identifiers1 :=
        if selectedNodes.any (fun selectedNode => selectedNode.id = link.source)
        then identifiers ++ [link.target] else identifiers
      if selectedNodes.any (fun selectedNode => selectedNode.id = link.target)
      then identifiers1 ++ [link.source] else identifiers1) =
      identifiers ++ linkNeighbours selectedNodes link := by
  unfold linkNeighbours
  by_cases h1 : selectedNodes.any (fun s => decide (s.id = link.source)) = true <;>
    by_cases h2 : selectedNodes.any (fun s => decide (s.id = link.target)) = true <;>
    simp [h1, h2]

theorem mem_neighbours_from (selectedNodes : List Node) (x : String) (linksData : List Link) :
    ∀ start : List String,
      x ∈ linksData.foldl
          (fun identifiers link =>
            let identifiers1 :=
              if selectedNodes.any (fun selectedNode => selectedNode.id = link.source)
              then identifiers ++ [link.target] else identifiers
            if selectedNodes.any (fun selectedNode => selectedNode.id = link.target)
            then identifiers1 ++ [link.source] else identifiers1)
          start ↔
        x ∈ start ∨ ∃ link ∈ linksData, x ∈ linkNeighbours selectedNodes link := by
  induction linksData with
  | nil => intro start; simp
  | cons link rest ih =>
    intro start
    rw [List.foldl_cons, neighbours_step, ih, List.mem_append]
    simp only [List.mem_cons, exists_eq_or_imp, or_assoc]

theorem mem_neighbourNodeIdentifiers (linksData : List Link) (selectedNodes : List Node)
    (x : String) :
    x ∈ neighbourNodeIdentifiers linksData selectedNodes ↔
      ∃ link ∈ linksData,
        ((∃ s ∈ selectedNodes, s.id = link.source) ∧ x = link.target) ∨
        ((∃ s ∈ selectedNodes, s.id = link.target) ∧ x = link.source) := by
  rw [neighbourNodeIdentifiers, mem_neighbours_from]
  simp only [List.not_mem_nil, false_or, mem_linkNeighbours]

theorem mem_getAdjacentNodes (nodesData : List Node) (linksData : List Link)
    (selectedNodes : List Node) (formData : FormData) (node : Node) :
    node ∈ getAdjacentNodes nodesData linksData selectedNodes formData ↔
      node ∈ nodesData ∧ formData.get (toStr node.type ++ "-mode") = some "adjacent" ∧
        node.id ∈ neighbourNodeIdentifiers linksData selectedNodes := by
  simp only [getAdjacentNodes, List.mem_filter]
  by_cases ha : formData.get (toStr node.type ++ "-mode") = some "adjacent"
  · simp [ha]
  · simp [ha]

theorem mem_liveNodesData (nodesData : List Node) (linksData : List Link) (formData : FormData)
    (node : Node) :
    node ∈ liveNodesData nodesData linksData formData ↔
      node ∈ selectedNodesData nodesData formData ∨
      node ∈ getAdjacentNodes nodesData linksData (selectedNodesData nodesData formData) formData ∨
      node ∈ getAdjacentNodes nodesData linksData
        (getAdjacentNodes nodesData linksData (selectedNodesData nodesData formData) formData)
        formData := by
  simp [liveNodesData, or_assoc]

theorem linked_of_neighbour (linksData : List Link) (selectedNodes : List Node) (x : String)
    (h : x ∈ neighbourNodeIdentifiers linksData selectedNodes) :
    ∃ s ∈ selectedNodes, linked linksData s.id x = true := by
  rw [mem_neighbourNodeIdentifiers] at h
  obtain ⟨link, hlink, ⟨⟨s, hs, h1⟩, h2⟩ | ⟨⟨s, hs, h1⟩, h2⟩⟩ := h
  · refine ⟨s, hs, ?_⟩
    simp only [linked, List.any_eq_true]
    exact ⟨link, hlink, by simp [h1, h2]⟩
  · refine ⟨s, hs, ?_⟩
    simp only [linked, List.any_eq_true]
    exact ⟨link, hlink, by simp [h1, h2]⟩

/-- C5: a node of the full node list whose type has the mode `all` is in the
live node list, whatever the form data and the links are otherwise. -/
theorem all_mode_node_live (nodesData : List Node) (linksData : List Link)
    (formData : FormData) (node : Node) (hnode : node ∈ nodesData)
    (hmode : formData.get (toStr node.type ++ "-mode") = some "all") :
    node ∈ liveNodesData nodesData linksData formData := by
  rw [mem_liveNodesData, mem_selectedNodesData]
  exact Or.inl ⟨hnode, Or.inr hmode⟩

/-- C5 (witness): the company of the specification's example is live when
companies have the mode `all` and people the mode `none`. -/
theorem all_mode_node_live_witness :
    acmeNode ∈ liveNodesData (nodes acmeRows (.str "Company")) (links acmeRows (.str "Company"))
      acmeFormPersonNone :=
  all_mode_node_live (nodes acmeRows (.str "Company")) (links acmeRows (.str "Company"))
    acmeFormPersonNone acmeNode (by decide) (by decide)

theorem selected_mode_ne_adjacent (nodesData : List Node) (formData : FormData) (node : Node)
    (h : node ∈ selectedNodesData nodesData formData) :
    formData.get (toStr node.type ++ "-mode") ≠ some "adjacent" := by
  rw [mem_selectedNodesData] at h
  rcases h.2 with ⟨hs, _⟩ | ha
  · rw [hs]; decide
  · rw [ha]; decide

/-- A live node whose type has the mode `adjacent` is linked to a node of the
first pass, directly or through one node whose type has the mode `adjacent`. -/
theorem adjacent_live_linked (nodesData : List Node) (linksData : List Link)
    (formData : FormData) (b : Node) (hlive : b ∈ liveNodesData nodesData linksData formData)
    (hb : formData.get (toStr b.type ++ "-mode") = some "adjacent") :
    ∃ s ∈ selectedNodesData nodesData formData,
      linked linksData s.id b.id = true ∨
      ∃ m ∈ nodesData, formData.get (toStr m.type ++ "-mode") = some "adjacent" ∧
        linked linksData s.id m.id = true ∧ linked linksData m.id b.id = true := by
  rw [mem_liveNodesData] at hlive
  rcases hlive with h | h | h
  · exact absurd hb (selected_mode_ne_adjacent nodesData formData b h)
  · rw [mem_getAdjacentNodes] at h
    obtain ⟨s, hs, hl⟩ := linked_of_neighbour _ _ _ h.2.2
    exact ⟨s, hs, Or.inl hl⟩
  · rw [mem_getAdjacentNodes] at h
    obtain ⟨m, hm, hl⟩ := linked_of_neighbour _ _ _ h.2.2
    rw [mem_getAdjacentNodes] at hm
    obtain ⟨s, hs, hl1⟩ := linked_of_neighbour _ _ _ hm.2.2
    exact ⟨s, hs, Or.inr ⟨m, hm.1, hm.2.1, hl1, hl⟩⟩

/-- C6 (amended): when type `A` has the mode `all`, is the only node type
whose mode is `all` or `selected`, and the type of the node `b` has the mode
`adjacent`, then `b` is not in the live node list if it is linked to no node
of type `A`, neither directly nor through one node whose type has the mode
`adjacent`. -/
theorem adjacent_node_excluded (nodesData : List Node) (linksData : List Link)
    (formData : FormData) (A : JsVal) (b : Node)
    (_hA : formData.get (toStr A ++ "-mode") = some "all")
    (hb : formData.get (toStr b.type ++ "-mode") = some "adjacent")
    (honly : ∀ n ∈ nodesData, n.type ≠ A →
      formData.get (toStr n.type ++ "-mode") ≠ some "all" ∧
      formData.get (toStr n.type ++ "-mode") ≠ some "selected")
    (hdirect : ∀ a ∈ nodesData, a.type = A → linked linksData a.id b.id = false)
    (htwo : ∀ a ∈ nodesData, a.type = A → ∀ m ∈ nodesData,
      formData.get (toStr m.type ++ "-mode") = some "adjacent" →
      (linked linksData a.id m.id && linked linksData m.id b.id) = false) :
    b ∉ liveNodesData nodesData linksData formData := by
  intro hlive
  obtain ⟨s, hs, h⟩ := adjacent_live_linked nodesData linksData formData b hlive hb
  rw [mem_selectedNodesData] at hs
  have hsA : s.type = A := by
    by_contra hne
    have := honly s hs.1 hne
    rcases hs.2 with ⟨h1, _⟩ | h1
    · exact this.2 h1
    · exact this.1 h1
  rcases h with h | ⟨m, hm, hmode, h1, h2⟩
  · rw [hdirect s hs.1 hsA] at h
    exact Bool.false_ne_true h
  · have := htwo s hs.1 hsA m hm hmode
    rw [h1, h2] at this
    exact Bool.false_ne_true this.symm

/-- C6 (witness): with cities shown and companies and people shown when
adjacent, `Person: Bob`, whose only link leads to a company that is linked to
no city, is not live. -/
theorem adjacent_node_excluded_witness :
    bobNode ∉ liveNodesData (nodes cityRows (.str "Company")) (links cityRows (.str "Company"))
      cityOnlyForm :=
  adjacent_node_excluded (nodes cityRows (.str "Company")) (links cityRows (.str "Company"))
    cityOnlyForm (.str "City") bobNode (by decide) (by decide) (by decide) (by decide)
    (by decide)

/-- C6 (counterexample): cities have the mode `all` and people the mode
`adjacent`; `Person: Bob` is linked to no city, neither directly nor through
a node of an adjacent-mode type, and is live all the same, being linked to a
company while companies have the mode `all` too. -/
theorem adjacent_node_third_type_counterexample :
    cityForm.get (toStr (JsVal.str "City") ++ "-mode") = some "all" ∧
      cityForm.get (toStr bobNode.type ++ "-mode") = some "adjacent" ∧
      (∀ a ∈ nodes cityRows (.str "Company"), a.type = .str "City" →
        linked (links cityRows (.str "Company")) a.id bobNode.id = false) ∧
      (∀ a ∈ nodes cityRows (.str "Company"), a.type = .str "City" →
        ∀ m ∈ nodes cityRows (.str "Company"),
          cityForm.get (toStr m.type ++ "-mode") = some "adjacent" →
          (linked (links cityRows (.str "Company")) a.id m.id &&
            linked (links cityRows (.str "Company")) m.id bobNode.id) = false) ∧
      bobNode ∈ liveNodesData (nodes cityRows (.str "Company"))
        (links cityRows (.str "Company")) cityForm := by
  refine ⟨by decide, by decide, by decide, by decide, by decide⟩

theorem filter_ids_nodup (nodesData : List Node) (p : Node → Bool)
    (h : (nodesData.map (fun node => node.id)).Nodup) :
    ((nodesData.filter p).map (fun node => node.id)).Nodup :=
  List.Nodup.sublist (List.Sublist.map _ (List.filter_sublist _)) h

/-- C7 (amended): for a full model whose node ids are pairwise distinct,
whose primary nodes all have the same type, and whose links each have the id
of primary nodes only as source and the id of nodes that are not primary only
as target, as `nodes` and `links` build them, the live node list contains
each node id at most once, whatever the configuration. -/
theorem live_ids_unique (nodesData : List Node) (linksData : List Link) (formData : FormData)
    (hids : (nodesData.map (fun node => node.id)).Nodup)
    (hsource : ∀ link ∈ linksData, ∀ n ∈ nodesData, n.id = link.source → n.primary = true)
    (htarget : ∀ link ∈ linksData, ∀ n ∈ nodesData, n.id = link.target → n.primary = false)
    (htype : ∀ n ∈ nodesData, ∀ m ∈ nodesData, n.primary = true → m.primary = true →
      n.type = m.type) :
    ((liveNodesData nodesData linksData formData).map (fun node => node.id)).Nodup := by
  have hinj : ∀ n ∈ nodesData, ∀ m ∈ nodesData, n.id = m.id → n = m :=
    fun n hn m hm h => List.inj_on_of_nodup_map hids hn hm h
  -- a primary node of the first pass and a primary adjacent-mode node cannot coexist
  have hclash : ∀ s ∈ selectedNodesData nodesData formData, ∀ y ∈ nodesData,
      s.primary = true → y.primary = true →
      formData.get (toStr y.type ++ "-mode") = some "adjacent" → False := by
    intro s hs y hy hsp hyp hmode
    have hsn : s ∈ nodesData := ((mem_selectedNodesData _ _ _).1 hs).1
    have ht := htype s hsn y hy hsp hyp
    exact selected_mode_ne_adjacent nodesData formData s hs (by rw [ht]; exact hmode)
  have hfirst : ∀ x ∈ getAdjacentNodes nodesData linksData
      (selectedNodesData nodesData formData) formData,
      (x.primary = true → ∃ link ∈ linksData, x.id = link.source) ∧
      (x.primary = false → ∃ s ∈ selectedNodesData nodesData formData, s.primary = true) := by
    intro x hx
    rw [mem_getAdjacentNodes, mem_neighbourNodeIdentifiers] at hx
    obtain ⟨hxn, _, link, hlink, ⟨⟨s, hs, h1⟩, h2⟩ | ⟨⟨s, hs, h1⟩, h2⟩⟩ := hx
    · have hxp := htarget link hlink x hxn h2
      have hsn : s ∈ nodesData := ((mem_selectedNodesData _ _ _).1 hs).1
      exact ⟨fun h => by rw [hxp] at h; exact absurd h (by decide),
        fun _ => ⟨s, hs, hsource link hlink s hsn h1⟩⟩
    · have hxp := hsource link hlink x hxn h2
      exact ⟨fun _ => ⟨link, hlink, h2⟩, fun h => by rw [hxp] at h; exact absurd h (by decide)⟩
  simp only [liveNodesData, List.map_append]
  rw [List.nodup_append, List.nodup_append]
  refine ⟨⟨filter_ids_nodup _ _ hids, filter_ids_nodup _ _ hids, ?_⟩,
    filter_ids_nodup _ _ hids, ?_⟩
  · intro i h1 h2
    obtain ⟨s, hs, rfl⟩ := List.mem_map.1 h1
    obtain ⟨x, hx, hsx⟩ := List.mem_map.1 h2
    have hsn : s ∈ nodesData := ((mem_selectedNodesData _ _ _).1 hs).1
    have hx1 := (mem_getAdjacentNodes _ _ _ _ _).1 hx
    have := hinj x hx1.1 s hsn hsx
    subst this
    exact selected_mode_ne_adjacent nodesData formData x hs hx1.2.1
  · intro i h1 h2
    obtain ⟨x, hx, hxi⟩ := List.mem_map.1 h2
    have hx2 := (mem_getAdjacentNodes _ _ _ _ _).1 hx
    rcases List.mem_append.1 h1 with h1 | h1
    · obtain ⟨s, hs, hsi⟩ := List.mem_map.1 h1
      have hsn : s ∈ nodesData := ((mem_selectedNodesData _ _ _).1 hs).1
      have := hinj x hx2.1 s hsn (hxi.trans hsi.symm)
      subst this
      exact selected_mode_ne_adjacent nodesData formData x hs hx2.2.1
    · obtain ⟨x1, hx1, hx1i⟩ := List.mem_map.1 h1
      have hx1n := ((mem_getAdjacentNodes _ _ _ _ _).1 hx1).1
      have := hinj x hx2.1 x1 hx1n (hxi.trans hx1i.symm)
      subst this
      -- `x` is in both adjacency passes
      obtain ⟨link, hlink, ⟨⟨y, hy, h3⟩, h4⟩ | ⟨⟨y, hy, h3⟩, h4⟩⟩ :=
        (mem_neighbourNodeIdentifiers _ _ _).1 hx2.2.2
      · -- `y` is the primary source, `x` the target
        have hy1 := (mem_getAdjacentNodes _ _ _ _ _).1 hy
        have hyp := hsource link hlink y hy1.1 h3
        have hxp := htarget link hlink x hx2.1 h4
        obtain ⟨s, hs, hsp⟩ := (hfirst x hx1).2 hxp
        exact hclash s hs y hy1.1 hsp hyp hy1.2.1
      · -- `x` is the primary source, `y` the target
        have hy1 := (mem_getAdjacentNodes _ _ _ _ _).1 hy
        have hyp := htarget link hlink y hy1.1 h3
        have hxp := hsource link hlink x hx2.1 h4
        obtain ⟨s, hs, hsp⟩ := (hfirst y hy).2 hyp
        exact hclash s hs x hx2.1 hsp hxp hx2.2.1

/-- C7 (witness): the model of the specification's example, with companies
shown and people shown when adjacent, has a live node list without repeated
ids. -/
theorem live_ids_unique_witness :
    ((liveNodesData (nodes acmeRows (.str "Company")) (links acmeRows (.str "Company"))
      acmeForm).map (fun node => node.id)).Nodup :=
  live_ids_unique (nodes acmeRows (.str "Company")) (links acmeRows (.str "Company")) acmeForm
    (by decide) (by decide) (by decide) (by decide)

/-- C7 (counterexample): three nodes with distinct ids, joined pairwise by
links over these ids; with type `A` shown and type `B` shown when adjacent,
both nodes of type `B` are found by the first and again by the second
adjacency pass, so their ids occur twice in the live node list. -/
theorem live_ids_repeated_counterexample :
    (triangleNodes.map (fun node => node.id)).Nodup ∧
      (∀ link ∈ triangleLinks,
        link.source ∈ triangleNodes.map (fun node => node.id) ∧
        link.target ∈ triangleNodes.map (fun node => node.id)) ∧
      (liveNodesData triangleNodes triangleLinks triangleForm).map (fun node => node.id) =
        ["A: a", "B: b1", "B: b2", "B: b1", "B: b2"] ∧
      ¬ ((liveNodesData triangleNodes triangleLinks triangleForm).map
        (fun node => node.id)).Nodup := by
  refine ⟨by decide, by decide, by decide, by decide⟩

/-- A node whose type has the mode `selected` is live only if its name is
among the values selected for its type. -/
theorem selected_mode_live_chosen (nodesData : List Node) (linksData : List Link)
    (formData : FormData) (node : Node)
    (hmode : formData.get (toStr node.type ++ "-mode") = some "selected")
    (hlive : node ∈ liveNodesData nodesData linksData formData) :
    ∃ value ∈ formData.getAll (toStr node.type), JsVal.str value = node.name := by
  have hne : formData.get (toStr node.type ++ "-mode") ≠ some "adjacent" := by
    rw [hmode]; decide
  rw [mem_liveNodesData] at hlive
  rcases hlive with h | h | h
  · rw [mem_selectedNodesData] at h
    rcases h.2 with ⟨_, h1⟩ | h1
    · exact h1
    · rw [hmode] at h1
      exact absurd h1 (by decide)
  · exact absurd ((mem_getAdjacentNodes _ _ _ _ _).1 h).2.1 hne
  · exact absurd ((mem_getAdjacentNodes _ _ _ _ _).1 h).2.1 hne

/-- C8 (amended): in every full model and configuration, a node whose type
has the mode `selected` and whose name is not among the selected names is not
in the live node list, whatever it is linked to. -/
theorem selected_mode_unchosen_not_live (nodesData : List Node) (linksData : List Link)
    (formData : FormData) (node : Node)
    (hmode : formData.get (toStr node.type ++ "-mode") = some "selected")
    (hname : ∀ value ∈ formData.getAll (toStr node.type), JsVal.str value ≠ node.name) :
    node ∉ liveNodesData nodesData linksData formData := by
  intro hlive
  obtain ⟨value, hvalue, h⟩ :=
    selected_mode_live_chosen nodesData linksData formData node hmode hlive
  exact hname value hvalue h

/-- C8 (witness): with people in the mode `selected` and nobody selected,
`Person: Bob` is not live although it is linked to a live company. -/
theorem selected_mode_unchosen_not_live_witness :
    bobNode ∉ liveNodesData (nodes acmeRows (.str "Company")) (links acmeRows (.str "Company"))
      acmeFormPersonSelected :=
  selected_mode_unchosen_not_live (nodes acmeRows (.str "Company"))
    (links acmeRows (.str "Company")) acmeFormPersonSelected bobNode (by decide) (by decide)

/-- C8 (counterexample): there is no full model and configuration in which a
type has the mode `selected` with no name selected and a node of that type is
in the live node list. -/
theorem selected_mode_empty_counterexample :
    ¬ ∃ (nodesData : List Node) (linksData : List Link) (formData : FormData) (node : Node),
      formData.get (toStr node.type ++ "-mode") = some "selected" ∧
      formData.getAll (toStr node.type) = [] ∧
      node ∈ liveNodesData nodesData linksData formData := by
  rintro ⟨nodesData, linksData, formData, node, hmode, hnone, hlive⟩
  obtain ⟨value, hvalue, _⟩ :=
    selected_mode_live_chosen nodesData linksData formData node hmode hlive
  rw [hnone] at hvalue
  exact List.not_mem_nil _ hvalue

theorem char_toNat_lt (c : Char) : c.toNat < 0x110000 := by
  have h := c.valid
  simp only [UInt32.isValidChar, Nat.isValidChar] at h
  show c.val.toNat < 0x110000
  omega

theorem char_toNat_inj (c d : Char) (h : c.toNat = d.toNat) : c = d := by
  rw [← Char.ofNat_toNat c, ← Char.ofNat_toNat d, h]

theorem hexDigit_inj : ∀ a < 16, ∀ b < 16, hexDigit a = hexDigit b → a = b := by
  decide

theorem percentByte_inj (a b : Nat) (x y : List Char) (ha : a < 256) (hb : b < 256)
    (h : percentByte a ++ x = percentByte b ++ y) : a = b ∧ x = y := by
  simp only [percentByte, List.cons_append, List.nil_append, List.cons.injEq, true_and] at h
  obtain ⟨h1, h2, h3⟩ := h
  have e1 := hexDigit_inj (a / 16) (by omega) (b / 16) (by omega) h1
  have e2 := hexDigit_inj (a % 16) (by omega) (b % 16) (by omega) h2
  exact ⟨by omega, h3⟩

theorem utf8Bytes_lt (n : Nat) (hn : n < 0x110000) : ∀ b ∈ utf8Bytes n, b < 256 := by
  intro b hb
  unfold utf8Bytes at hb
  split_ifs at hb <;> simp at hb <;> omega

theorem utf8Bytes_ne_nil (n : Nat) : utf8Bytes n ≠ [] := by
  unfold utf8Bytes
  split_ifs <;> simp

theorem utf8Bytes_length (n m : Nat) (hn : n < 0x110000) (hm : m < 0x110000)
    (h : (utf8Bytes n).head? = (utf8Bytes m).head?) :
    (utf8Bytes n).length = (utf8Bytes m).length := by
  unfold utf8Bytes at h ⊢
  split_ifs at h ⊢ <;> simp at h ⊢ <;> omega

theorem utf8Bytes_inj (n m : Nat) (h : utf8Bytes n = utf8Bytes m) : n = m := by
  unfold utf8Bytes at h
  split_ifs at h <;> simp at h <;> omega

theorem percentBytes_inj (bs : List Nat) :
    ∀ (cs : List Nat) (x y : List Char), (∀ b ∈ bs, b < 256) → (∀ c ∈ cs, c < 256) →
      bs.length = cs.length → bs.flatMap percentByte ++ x = cs.flatMap percentByte ++ y →
      bs = cs ∧ x = y := by
  induction bs with
  | nil =>
    intro cs x y _ _ hl h
    cases cs with
    | nil => exact ⟨rfl, by simpa using h⟩
    | cons c cs => simp at hl
  | cons b bs ih =>
    intro cs x y hb hc hl h
    cases cs with
    | nil => simp at hl
    | cons c cs =>
      simp only [List.flatMap_cons, List.append_assoc] at h
      obtain ⟨h1, h2⟩ := percentByte_inj b c _ _ (hb b (List.mem_cons_self _ _))
        (hc c (List.mem_cons_self _ _)) h
      obtain ⟨h3, h4⟩ := ih cs x y (fun b1 h => hb b1 (List.mem_cons_of_mem _ h))
        (fun c1 h => hc c1 (List.mem_cons_of_mem _ h)) (by simpa using hl) h2
      exact ⟨by rw [h1, h3], h4⟩

theorem percentBytes_head (bs cs : List Nat) (x y : List Char) (hb : ∀ b ∈ bs, b < 256)
    (hc : ∀ c ∈ cs, c < 256) (hbs : bs ≠ []) (hcs : cs ≠ [])
    (h : bs.flatMap percentByte ++ x = cs.flatMap percentByte ++ y) : bs.head? = cs.head? := by
  cases bs with
  | nil => exact absurd rfl hbs
  | cons b bs =>
    cases cs with
    | nil => exact absurd rfl hcs
    | cons c cs =>
      simp only [List.flatMap_cons, List.append_assoc] at h
      obtain ⟨h1, _⟩ := percentByte_inj b c _ _ (hb b (List.mem_cons_self _ _))
        (hc c (List.mem_cons_self _ _)) h
      simp [h1]

theorem percentBytes_head_char (bs : List Nat) (hbs : bs ≠ []) (x : List Char) :
    (bs.flatMap percentByte ++ x).head? = some '%' := by
  cases bs with
  | nil => exact absurd rfl hbs
  | cons b bs => simp [percentByte]

theorem encodeChar_prefix_free (c d : Char) (x y : List Char)
    (h : encodeChar c ++ x = encodeChar d ++ y) : c = d ∧ x = y := by
  have hpercent : isUriUnreserved '%' = false := by decide
  unfold encodeChar at h
  cases hc : isUriUnreserved c <;> cases hd : isUriUnreserved d <;>
    simp only [hc, hd, Bool.false_eq_true, if_true, if_false] at h
  · have hb := utf8Bytes_lt c.toNat (char_toNat_lt c)
    have hb1 := utf8Bytes_lt d.toNat (char_toNat_lt d)
    have hhead := percentBytes_head _ _ x y hb hb1 (utf8Bytes_ne_nil _) (utf8Bytes_ne_nil _) h
    have hlen := utf8Bytes_length _ _ (char_toNat_lt c) (char_toNat_lt d) hhead
    obtain ⟨h1, h2⟩ := percentBytes_inj _ _ x y hb hb1 hlen h
    exact ⟨char_toNat_inj c d (utf8Bytes_inj _ _ h1), h2⟩
  · exfalso
    have := congrArg List.head? h
    rw [percentBytes_head_char _ (utf8Bytes_ne_nil _)] at this
    simp only [List.singleton_append, List.head?_cons, Option.some.injEq] at this
    rw [← this, hpercent] at hd
    exact Bool.false_ne_true hd
  · exfalso
    have := congrArg List.head? h
    rw [percentBytes_head_char _ (utf8Bytes_ne_nil _)] at this
    simp only [List.singleton_append, List.head?_cons, Option.some.injEq] at this
    rw [this, hpercent] at hc
    exact Bool.false_ne_true hc
  · simpa using h

theorem encodeChar_ne_nil (c : Char) : encodeChar c ≠ [] := by
  unfold encodeChar
  split
  · simp
  · intro h
    have := percentBytes_head_char (utf8Bytes c.toNat) (utf8Bytes_ne_nil _) []
    rw [List.append_nil, h] at this
    simp at this

theorem encodeChars_inj (s : List Char) :
    ∀ t : List Char, s.flatMap encodeChar = t.flatMap encodeChar → s = t := by
  induction s with
  | nil =>
    intro t h
    cases t with
    | nil => rfl
    | cons d t =>
      exfalso
      simp only [List.flatMap_nil, List.flatMap_cons] at h
      exact encodeChar_ne_nil d (List.append_eq_nil.1 h.symm).1
  | cons c s ih =>
    intro t h
    cases t with
    | nil =>
      exfalso
      simp only [List.flatMap_nil, List.flatMap_cons] at h
      exact encodeChar_ne_nil c (List.append_eq_nil.1 h).1
    | cons d t =>
      simp only [List.flatMap_cons] at h
      obtain ⟨h1, h2⟩ := encodeChar_prefix_free c d _ _ h
      rw [h1, ih t h2]

/-- The function `encodeURIComponent` maps different strings to different
strings. -/
theorem encodeURIComponent_inj (s t : String)
    (h : encodeURIComponent s = encodeURIComponent t) : s = t := by
  have h1 := congrArg String.data h
  exact String.ext (encodeChars_inj s.data t.data h1)

theorem append_right_cancel_string (a b c : String) (h : a ++ c = b ++ c) : a = b := by
  have h1 := congrArg String.data h
  simp only [String.data_append] at h1
  exact String.ext (List.append_cancel_right h1)

theorem labels_key_ne_mode_key (a b : String) :
    encodeURIComponent (a ++ " display labels") ≠ b ++ "-mode" := by
  intro h
  have h1 := congrArg (fun s => s.data.getLast?) h
  have e : (" display labels".data).flatMap encodeChar = "%20display%20labels".data := by
    decide
  simp only [encodeURIComponent, String.data_append, List.flatMap_append, e] at h1
  rw [List.getLast?_append, List.getLast?_append] at h1
  have e1 : "%20display%20labels".data.getLast? = some 's' := by decide
  have e2 : "-mode".data.getLast? = some 'e' := by decide
  rw [e1, e2] at h1
  simp at h1

/-- Two (node type, control) pairs with the same settings key have the same
type name and the same control, when neither type name is the mode key or
the display-labels key of the other type. -/
theorem settingsKey_eq (t1 t2 : JsVal) (c1 c2 : Control)
    (f12 : toStr t1 ≠ settingsKey t2 .mode ∧ toStr t1 ≠ settingsKey t2 .displayLabels)
    (f21 : toStr t2 ≠ settingsKey t1 .mode ∧ toStr t2 ≠ settingsKey t1 .displayLabels)
    (hkey : settingsKey t1 c1 = settingsKey t2 c2) : toStr t1 = toStr t2 ∧ c1 = c2 := by
  cases c1 <;> cases c2 <;> simp only [settingsKey] at hkey f12 f21
  · exact ⟨append_right_cancel_string _ _ _ (encodeURIComponent_inj _ _ hkey), rfl⟩
  · exact absurd hkey (labels_key_ne_mode_key _ _)
  · exact absurd hkey.symm f21.2
  · exact absurd hkey.symm (labels_key_ne_mode_key _ _)
  · exact ⟨append_right_cancel_string _ _ _ hkey, rfl⟩
  · exact absurd hkey.symm f21.1
  · exact absurd hkey f12.2
  · exact absurd hkey f12.1
  · exact ⟨hkey, rfl⟩

/-- C11 (amended): for every set of node types in which no type name is
itself the mode key or the display-labels key of a type of the set, the
settings keys of the controls are pairwise distinct: two (node type, control)
pairs that differ in the type name or in the control never have the same
key. -/
theorem settingsKey_unique (types : List JsVal)
    (hfree : ∀ t ∈ types, ∀ u ∈ types,
      toStr t ≠ settingsKey u .mode ∧ toStr t ≠ settingsKey u .displayLabels)
    (t1 t2 : JsVal) (c1 c2 : Control) (h1 : t1 ∈ types) (h2 : t2 ∈ types)
    (hdiff : toStr t1 ≠ toStr t2 ∨ c1 ≠ c2) : settingsKey t1 c1 ≠ settingsKey t2 c2 := by
  intro hkey
  obtain ⟨e1, e2⟩ := settingsKey_eq t1 t2 c1 c2 (hfree t1 h1 t2 h2) (hfree t2 h2 t1 h1) hkey
  rcases hdiff with h | h
  · exact h e1
  · exact h e2

/-- C11 (witness): among the types `Company` and `Person`, the mode key of
`Company` differs from the node list key of `Person`. -/
theorem settingsKey_unique_witness :
    settingsKey (.str "Company") .mode ≠ settingsKey (.str "Person") .nodeList :=
  settingsKey_unique [.str "Company", .str "Person"] (by decide) (.str "Company")
    (.str "Person") .mode .nodeList (by decide) (by decide) (by decide)

/-- C11 (counterexample): the mode radio group of the type `X` and the node
selection list of the type `X-mode` are different (node type, control) pairs
with the same settings key `X-mode`. -/
theorem settingsKey_collision_counterexample :
    settingsKey (.str "X") .mode = settingsKey (.str "X-mode") .nodeList ∧
      settingsKey (.str "X") .mode = "X-mode" ∧
      toStr (.str "X") ≠ toStr (.str "X-mode") ∧ Control.mode ≠ Control.nodeList := by
  refine ⟨by decide, by decide, by decide, by decide⟩

/-! ## The display-labels checkbox -/

theorem displayLabelsChecked_eq (stringIsZero : String → Bool) (settings : Settings)
    (nodeType : JsVal) :
    displayLabelsChecked stringIsZero settings nodeType =
      !(stringIsZero (arrayToString
        (getSettingValues settings (settingsKey nodeType .displayLabels)))) := rfl

theorem arrayToString_nil : arrayToString [] = "" := by decide

/-- C12 (amended): for every node type, when the loaded settings hold no
entry for the type's display-labels key, in particular for the empty
settings, the display-labels checkbox is not checked: the empty array read
from the settings compares equal to 0, the empty string converting to 0. -/
theorem displayLabels_default_unchecked (stringIsZero : String → Bool) (settings : Settings)
    (nodeType : JsVal) (hzero : stringIsZero "" = true)
    (hentry : settings.lookup (settingsKey nodeType .displayLabels) = none) :
    displayLabelsChecked stringIsZero settings nodeType = false := by
  rw [displayLabelsChecked_eq]
  simp only [getSettingValues, hentry, arrayToString_nil, hzero, Bool.not_true]

/-- C12 (witness): with settings that only hold a mode, the display-labels
checkbox of the type `Person` is not checked. -/
theorem displayLabels_default_unchecked_witness :
    displayLabelsChecked onlyEmptyIsZero [("Person-mode", ["all"])] (.str "Person") = false :=
  displayLabels_default_unchecked onlyEmptyIsZero [("Person-mode", ["all"])] (.str "Person")
    (by decide) (by decide)

/-- The display-labels checkbox is checked when the saved value is `["on"]`,
the string `on` not converting to 0. -/
theorem displayLabels_checked_when_saved (stringIsZero : String → Bool) (settings : Settings)
    (nodeType : JsVal) (hon : stringIsZero "on" = false)
    (hentry : settings.lookup (settingsKey nodeType .displayLabels) = some ["on"]) :
    displayLabelsChecked stringIsZero settings nodeType = true := by
  have e : arrayToString ["on"] = "on" := by decide
  rw [displayLabelsChecked_eq]
  simp only [getSettingValues, hentry, e, hon, Bool.not_false]

/-- C12 (counterexample): for the empty settings, no conversion of strings to
numbers that takes the empty string to 0 makes the display-labels checkbox of
the type `Person` checked. -/
theorem displayLabels_default_counterexample :
    ¬ ∃ stringIsZero : String → Bool, stringIsZero "" = true ∧
      displayLabelsChecked stringIsZero [] (.str "Person") = true := by
  rintro ⟨stringIsZero, hzero, h⟩
  rw [displayLabelsChecked_eq] at h
  simp only [getSettingValues, List.lookup_nil, arrayToString_nil, hzero, Bool.not_true] at h
  exact Bool.false_ne_true h

/-! ## normaliseCSV and parseData: errors -/

theorem fillRow_none_blank (row : RawRow) (h : ∃ e ∈ row, e.2 = "") :
    fillRow none row = none := by
  induction row with
  | nil =>
    obtain ⟨e, he, _⟩ := h
    simp at he
  | cons e rest ih =>
    obtain ⟨k, v⟩ := e
    by_cases hv : v = ""
    · simp [fillRow, hv]
    · have hrest : ∃ e ∈ rest, e.2 = "" := by
        obtain ⟨e1, he1, h1⟩ := h
        rcases List.mem_cons.1 he1 with h2 | h2
        · subst h2
          exact absurd h1 hv
        · exact ⟨e1, h2, h1⟩
      simp [fillRow, hv, ih hrest]

/-- C14: for a row sequence with first row `row`, `normaliseCSV` throws and
returns no rows exactly when `row` has an empty-string cell, and returns
normally, with one row per input row, exactly when `row` has none, whatever
the later rows `rest` contain. -/
theorem normaliseCSV_first_row (row : RawRow) (rest : List RawRow) :
    (normaliseCSV (row :: rest) = none ↔ ∃ e ∈ row, e.2 = "") ∧
      ((∃ out, normaliseCSV (row :: rest) = some out ∧ out.length = (row :: rest).length) ↔
        ∀ e ∈ row, e.2 ≠ "") := by
  by_cases h : ∃ e ∈ row, e.2 = ""
  · have hnone : normaliseCSV (row :: rest) = none := by
      simp [normaliseCSV, normaliseFrom, fillRow_none_blank row h]
    refine ⟨⟨fun _ => h, fun _ => hnone⟩, ?_, ?_⟩
    · rintro ⟨out, hout, _⟩
      rw [hnone] at hout
      exact absurd hout (by simp)
    · intro hall
      obtain ⟨e, he, hv⟩ := h
      exact absurd hv (hall e he)
  · have hall : ∀ e ∈ row, e.2 ≠ "" := fun e he hv => h ⟨e, he, hv⟩
    have hsome := normaliseCSV_eq_fillFrom (row :: rest)
      (fun r hr => by
        have : row = r := by simpa using hr
        subst this
        exact hall)
    refine ⟨⟨fun hn => ?_, fun hb => absurd hb h⟩, fun _ => hall, fun _ => ?_⟩
    · rw [hsome] at hn
      exact absurd hn (by simp)
    · exact ⟨_, hsome, fillFrom_length _ _⟩

theorem primaryNodeColumnName_reserved (csv : List Row) (first : Row)
    (hfirst : csv.head? = some first)
    (hcolumns : ∀ k ∈ first.map Prod.fst, k = "other_node" ∨ k = "other_node_type") :
    primaryNodeColumnName csv = some .undefined := by
  have hfilter : (first.map Prod.fst).filter
      (fun columnName => !(["other_node", "other_node_type"].contains columnName)) = [] := by
    rw [List.filter_eq_nil_iff]
    intro k hk
    rcases hcolumns k hk with h | h <;> simp [h]
  simp only [primaryNodeColumnName, hfirst, hfilter]

theorem uniquePrimaryNodes_ne_nil (csv : List Row) (column : JsVal) (h : csv ≠ []) :
    uniquePrimaryNodes csv column ≠ [] := by
  obtain ⟨_, _, hC, _⟩ := countRows_inv (fun row => getProp row (toStr column)) csv
  cases csv with
  | nil => exact absurd rfl h
  | cons row rest =>
    have := hC row (List.mem_cons_self _ _)
    intro hnil
    simp only [uniquePrimaryNodes, List.map_eq_nil_iff] at hnil
    rw [hnil] at this
    simp at this

/-- C15 (amended): for every row sequence that `normaliseCSV` accepts and
whose first row has no column other than `other_node` and `other_node_type`,
`primaryNodeColumnName` returns `undefined` and `parseData` is not rejected:
it yields the links and nodes built for the column name `undefined`, one link
for every row and at least one node. -/
theorem parseData_without_primary_column (unnormalisedData : List RawRow) (data : List Row)
    (first : Row) (hdata : normaliseCSV unnormalisedData = some data)
    (hfirst : data.head? = some first)
    (hcolumns : ∀ k ∈ first.map Prod.fst, k = "other_node" ∨ k = "other_node_type") :
    primaryNodeColumnName data = some .undefined ∧
      parseData unnormalisedData = some (links data .undefined, nodes data .undefined) ∧
      (links data .undefined).length = data.length ∧
      links data .undefined ≠ [] ∧ nodes data .undefined ≠ [] := by
  have hcolumn := primaryNodeColumnName_reserved data first hfirst hcolumns
  have hne : data ≠ [] := by
    intro h
    rw [h] at hfirst
    simp at hfirst
  refine ⟨hcolumn, ?_, ?_, ?_, ?_⟩
  · simp only [parseData, hdata, hcolumn]
  · simp [links]
  · simpa [links] using hne
  · intro h
    exact uniquePrimaryNodes_ne_nil data .undefined hne (List.append_eq_nil.1 h).1

/-- C15 (witness): a row with the columns `other_node` and `other_node_type`
only is parsed into a model. -/
theorem parseData_without_primary_column_witness :
    primaryNodeColumnName [[("other_node", .str "Bob"), ("other_node_type", .str "Person")]] =
        some .undefined ∧
      parseData noPrimaryCsv =
        some (links [[("other_node", .str "Bob"), ("other_node_type", .str "Person")]] .undefined,
          nodes [[("other_node", .str "Bob"), ("other_node_type", .str "Person")]] .undefined) ∧
      (links [[("other_node", .str "Bob"), ("other_node_type", .str "Person")]]
        .undefined).length = 1 ∧
      links [[("other_node", .str "Bob"), ("other_node_type", .str "Person")]] .undefined ≠ [] ∧
      nodes [[("other_node", .str "Bob"), ("other_node_type", .str "Person")]] .undefined ≠ [] :=
  parseData_without_primary_column noPrimaryCsv
    [[("other_node", .str "Bob"), ("other_node_type", .str "Person")]]
    [("other_node", .str "Bob"), ("other_node_type", .str "Person")]
    (by decide) (by decide) (by decide)

/-- C15 (counterexample): the first row of `noPrimaryCsv` has no column
other than `other_node` and `other_node_type`, and `parseData` returns a
model with one link and two nodes, under the type and name `undefined`. -/
theorem parseData_no_primary_counterexample :
    (∀ row, noPrimaryCsv.head? = some row →
        ∀ k ∈ row.map Prod.fst, k = "other_node" ∨ k = "other_node_type") ∧
      parseData noPrimaryCsv =
        some ([⟨"undefined: undefined", "Person: Bob"⟩],
          [⟨"undefined: undefined", .undefined, .undefined, true, .num 1⟩,
           ⟨"Person: Bob", .str "Bob", .str "Person", false, .num 1⟩]) := by
  refine ⟨?_, by decide⟩
  intro row hrow
  have : row = [("other_node", "Bob"), ("other_node_type", "Person")] := by
    simpa [noPrimaryCsv] using hrow.symm
  subst this
  decide

/-! ## Label wrapping -/

/-- The test `fitsMaxLineLength` is the comparison with `maxLineLength` over
the rationals, and `maxLineLength` is the bound of the specification. -/
theorem fitsMaxLineLength_iff (nameLength x : Nat) :
    (fitsMaxLineLength nameLength x = true ↔
        (x : ℚ) ≤ min 30 (max ((nameLength : ℚ) / 3) 15)) ∧
      min (30 : ℚ) (max ((nameLength : ℚ) / 3) 15) = max 15 (min 30 ((nameLength : ℚ) / 3)) := by
  constructor
  · have h30 : (x : ℚ) ≤ 30 ↔ x ≤ 30 := by exact_mod_cast Iff.rfl
    have h15 : (x : ℚ) ≤ 15 ↔ x ≤ 15 := by exact_mod_cast Iff.rfl
    have h3 : (x : ℚ) ≤ (nameLength : ℚ) / 3 ↔ 3 * x ≤ nameLength := by
      rw [le_div_iff₀ (by norm_num : (0 : ℚ) < 3)]
      constructor
      · intro h
        have : ((x * 3 : Nat) : ℚ) ≤ (nameLength : ℚ) := by push_cast; exact h
        have := Nat.cast_le.1 this
        omega
      · intro h
        have : ((x * 3 : Nat) : ℚ) ≤ (nameLength : ℚ) := Nat.cast_le.2 (by omega)
        push_cast at this
        exact this
    simp only [fitsMaxLineLength, Bool.and_eq_true, Bool.or_eq_true, decide_eq_true_eq,
      le_min_iff, le_max_iff, h30, h15, h3]
  · rcases le_total ((nameLength : ℚ) / 3) 15 with h | h
    · rw [max_eq_right h, min_eq_right (by norm_num : (15 : ℚ) ≤ 30),
        max_eq_left (le_trans (min_le_right _ _) h)]
    · rw [max_eq_left h]
      rcases le_total ((nameLength : ℚ) / 3) 30 with h1 | h1
      · rw [min_eq_right h1, max_eq_right h]
      · rw [min_eq_left h1, max_eq_right (by norm_num : (15 : ℚ) ≤ 30)]

theorem nil_or_snoc (lines : List String) :
    lines = [] ∨ ∃ init last, lines = init ++ [last] := by
  rcases List.eq_nil_or_concat lines with h | ⟨init, last, h⟩
  · exact Or.inl h
  · exact Or.inr ⟨init, last, by rw [h, List.concat_eq_append]⟩

theorem jsLength_append (a b : String) : jsLength (a ++ b) = jsLength a + jsLength b := by
  simp [jsLength, codeUnits, String.data_append, List.flatMap_append]

theorem jsLength_space : jsLength " " = 1 := by decide

theorem wrapStep_nil (n : Nat) (word : String) : wrapStep n [] word = [word] := rfl

theorem wrapStep_concat (n : Nat) (init : List String) (currentLine word : String) :
    wrapStep n (init ++ [currentLine]) word =
      if fitsMaxLineLength n (jsLength currentLine + 1 + jsLength word) then
        init ++ [currentLine ++ " " ++ word]
      else init ++ [currentLine ++ " ", word] := by
  simp [wrapStep, List.getLast?_concat]

theorem wrapStep_ok (name : String) (lines : List String) (word : String)
    (hword : word ∈ labelWords name)
    (hclosed : ∀ line ∈ lines.dropLast, ∃ content, line = content ++ " " ∧ LineOk name content)
    (hlast : ∀ line, lines.getLast? = some line → LineOk name line) :
    (∀ line ∈ (wrapStep (jsLength name) lines word).dropLast,
        ∃ content, line = content ++ " " ∧ LineOk name content) ∧
      (∀ line, (wrapStep (jsLength name) lines word).getLast? = some line →
        LineOk name line) := by
  rcases nil_or_snoc lines with rfl | ⟨init, currentLine, rfl⟩
  · rw [wrapStep_nil]
    refine ⟨by simp, ?_⟩
    intro line hline
    have : word = line := by simpa using hline
    rw [← this]
    exact Or.inr hword
  · have hinit : ∀ line ∈ init, ∃ content, line = content ++ " " ∧ LineOk name content := by
      simpa using hclosed
    have hcurrent : LineOk name currentLine := hlast currentLine (List.getLast?_concat _)
    rw [wrapStep_concat]
    split
    · next hfits =>
      refine ⟨by simpa using hinit, ?_⟩
      intro line hline
      have : currentLine ++ " " ++ word = line := by simpa [List.getLast?_concat] using hline
      rw [← this]
      left
      rw [jsLength_append, jsLength_append, jsLength_space]
      exact hfits
    · refine ⟨?_, ?_⟩
      · have e : (init ++ [currentLine ++ " ", word]).dropLast = init ++ [currentLine ++ " "] := by
          rw [List.dropLast_append_cons]
          rfl
        rw [e]
        intro line hline
        rcases List.mem_append.1 hline with h | h
        · exact hinit line h
        · have : line = currentLine ++ " " := by simpa using h
          exact ⟨currentLine, this, hcurrent⟩
      · intro line hline
        have e : (init ++ [currentLine ++ " ", word]).getLast? = some word := by
          have : init ++ [currentLine ++ " ", word] = (init ++ [currentLine ++ " "]) ++ [word] := by
            simp
          rw [this, List.getLast?_concat]
        rw [e] at hline
        have : word = line := by simpa using hline
        rw [← this]
        exact Or.inr hword

theorem wrapFold_ok (name : String) (words : List String) :
    ∀ lines : List String, (∀ word ∈ words, word ∈ labelWords name) →
      (∀ line ∈ lines.dropLast, ∃ content, line = content ++ " " ∧ LineOk name content) →
      (∀ line, lines.getLast? = some line → LineOk name line) →
      (∀ line ∈ (words.foldl (wrapStep (jsLength name)) lines).dropLast,
          ∃ content, line = content ++ " " ∧ LineOk name content) ∧
        (∀ line, (words.foldl (wrapStep (jsLength name)) lines).getLast? = some line →
          LineOk name line) := by
  induction words with
  | nil => intro lines _ h1 h2; exact ⟨h1, h2⟩
  | cons word rest ih =>
    intro lines hwords h1 h2
    obtain ⟨h3, h4⟩ := wrapStep_ok name lines word (hwords word (List.mem_cons_self _ _)) h1 h2
    exact ih _ (fun w hw => hwords w (List.mem_cons_of_mem _ hw)) h3 h4

/-- C13 (amended): for every node name, every line of the label-wrapping fold
but the last is a content followed by the one space that the fold appends
when it starts the next line, the last line is its own content, and every
content has length at most `maxLineLength` or is a single token. -/
theorem labelLines_bound (name : String) :
    (∀ line ∈ (labelLines name).dropLast,
        ∃ content, line = content ++ " " ∧ LineOk name content) ∧
      (∀ line, (labelLines name).getLast? = some line → LineOk name line) :=
  wrapFold_ok name (labelWords name) [] (fun _ h => h) (by simp) (by simp)

/-- C13 (counterexample): the first line made for the name `fullLineName` of
31 characters, for which `maxLineLength` is 15, has 16 characters and is made
of two tokens. -/
theorem labelLines_trailing_space_counterexample :
    labelLines fullLineName = ["aaaaaaa bbbbbbb ", "ccccccccccccccc"] ∧
      jsLength fullLineName = 31 ∧ jsLength "aaaaaaa bbbbbbb " = 16 ∧
      fitsMaxLineLength 31 15 = true ∧ fitsMaxLineLength 31 16 = false ∧
      labelWords fullLineName = ["aaaaaaa", "bbbbbbb", "ccccccccccccccc"] ∧
      "aaaaaaa bbbbbbb " ∉ labelWords fullLineName := by
  refine ⟨by decide, by decide, by decide, by decide, by decide, by decide, by decide⟩

theorem wrapStep_ne_nil (n : Nat) (lines : List String) (word : String) :
    wrapStep n lines word ≠ [] := by
  rcases nil_or_snoc lines with rfl | ⟨init, currentLine, rfl⟩
  · simp [wrapStep_nil]
  · rw [wrapStep_concat]
    split <;> simp

theorem wrapStep_data (n : Nat) (lines : List String) (word : String) (h : lines ≠ []) :
    (wrapStep n lines word).flatMap String.data =
      lines.flatMap String.data ++ ' ' :: word.data := by
  rcases nil_or_snoc lines with rfl | ⟨init, currentLine, rfl⟩
  · exact absurd rfl h
  · have e : " ".data = [' '] := rfl
    rw [wrapStep_concat]
    split <;> simp [List.flatMap_append, String.data_append, e]

theorem wrapFold_data (n : Nat) (words : List String) :
    ∀ lines : List String, lines ≠ [] →
      (words.foldl (wrapStep n) lines).flatMap String.data =
          lines.flatMap String.data ++ words.flatMap (fun word => ' ' :: word.data) ∧
        words.foldl (wrapStep n) lines ≠ [] := by
  induction words with
  | nil => intro lines h; exact ⟨by simp, h⟩
  | cons word rest ih =>
    intro lines h
    obtain ⟨h1, h2⟩ := ih (wrapStep n lines word) (wrapStep_ne_nil n lines word)
    refine ⟨?_, h2⟩
    rw [List.foldl_cons, h1, wrapStep_data n lines word h]
    simp

theorem intercalate_space (x : List Char) (xs : List (List Char)) :
    [' '].intercalate (x :: xs) = x ++ xs.flatMap (fun w => ' ' :: w) := by
  induction xs generalizing x with
  | nil => simp [List.intercalate, List.intersperse]
  | cons y ys ih =>
    have := ih y
    simp only [List.intercalate, List.intersperse, List.flatten_cons, List.flatMap_cons] at this ⊢
    rw [this]
    simp

/-- C18: for every node name, the label-wrapping fold returns at least one
line, and the concatenation of its lines in order is the name with one space
inserted after every hyphen. -/
theorem labelLines_concat (name : String) :
    labelLines name ≠ [] ∧
      concatLines (labelLines name) = String.mk (hyphenSpaced name.data) := by
  have hsplit := List.intercalate_splitOn (hyphenSpaced name.data) ' '
  have hne : (hyphenSpaced name.data).splitOn ' ' ≠ [] := List.splitOnP_ne_nil _ _
  cases hw : (hyphenSpaced name.data).splitOn ' ' with
  | nil => exact absurd hw hne
  | cons first rest =>
    rw [hw, intercalate_space] at hsplit
    have hlines : labelLines name =
        (rest.map String.mk).foldl (wrapStep (jsLength name)) [String.mk first] := by
      simp [labelLines, labelWords, hw, wrapStep_nil]
    obtain ⟨h1, h2⟩ := wrapFold_data (jsLength name) (rest.map String.mk) [String.mk first]
      (by simp)
    rw [hlines]
    refine ⟨h2, ?_⟩
    rw [concatLines, h1, ← hsplit]
    simp [List.flatMap_map]

/-! ## Colours of the node types -/

theorem setAdd_mem (set : List JsVal) (value t : JsVal) :
    t ∈ setAdd set value ↔ t ∈ set ∨ t = value := by
  unfold setAdd
  by_cases h : value ∈ set
  · have e : set.contains value = true := by simpa using h
    simp only [e, if_true]
    constructor
    · exact Or.inl
    · rintro (h1 | h1)
      · exact h1
      · rw [h1]; exact h
  · simp [h]

theorem setAdd_nodup (set : List JsVal) (value : JsVal) (h : set.Nodup) :
    (setAdd set value).Nodup := by
  unfold setAdd
  by_cases hv : value ∈ set
  · simpa [hv] using h
  · have e : set.contains value = false := by simpa using hv
    simp only [e, Bool.false_eq_true, if_false]
    exact List.Nodup.append h (List.nodup_singleton _) (by simpa using hv)

theorem uniqueNodeTypes_from (nodesData : List Node) :
    ∀ start : List JsVal, start.Nodup →
      (nodesData.foldl (fun nodeTypes node => setAdd nodeTypes node.type) start).Nodup ∧
      ∀ t, t ∈ nodesData.foldl (fun nodeTypes node => setAdd nodeTypes node.type) start ↔
        t ∈ start ∨ ∃ node ∈ nodesData, node.type = t := by
  induction nodesData with
  | nil => intro start h; exact ⟨h, by simp⟩
  | cons node rest ih =>
    intro start h
    obtain ⟨h1, h2⟩ := ih (setAdd start node.type) (setAdd_nodup start node.type h)
    refine ⟨h1, ?_⟩
    intro t
    rw [List.foldl_cons, h2, setAdd_mem]
    simp only [List.mem_cons, exists_eq_or_imp]
    constructor
    · rintro ((h3 | h3) | h3)
      · exact Or.inl h3
      · exact Or.inr (Or.inl h3.symm)
      · exact Or.inr (Or.inr h3)
    · rintro (h3 | h3 | h3)
      · exact Or.inl (Or.inl h3)
      · exact Or.inl (Or.inr h3.symm)
      · exact Or.inr h3

theorem unitsLe_total (a : List Nat) : ∀ b, unitsLe a b = true ∨ unitsLe b a = true := by
  induction a with
  | nil => intro b; left; cases b <;> rfl
  | cons x xs ih =>
    intro b
    cases b with
    | nil => right; rfl
    | cons y ys =>
      simp only [unitsLe, Bool.or_eq_true, Bool.and_eq_true, decide_eq_true_eq]
      rcases Nat.lt_trichotomy x y with h | h | h
      · exact Or.inl (Or.inl h)
      · rcases ih ys with h1 | h1
        · exact Or.inl (Or.inr ⟨h, h1⟩)
        · exact Or.inr (Or.inr ⟨h.symm, h1⟩)
      · exact Or.inr (Or.inl h)

theorem unitsLe_trans (a : List Nat) :
    ∀ b c, unitsLe a b = true → unitsLe b c = true → unitsLe a c = true := by
  induction a with
  | nil => intro b c _ _; cases c <;> rfl
  | cons x xs ih =>
    intro b c hab hbc
    cases b with
    | nil => simp [unitsLe] at hab
    | cons y ys =>
      cases c with
      | nil => simp [unitsLe] at hbc
      | cons z zs =>
        simp only [unitsLe, Bool.or_eq_true, Bool.and_eq_true, decide_eq_true_eq] at hab hbc ⊢
        rcases hab with h1 | ⟨h1, h2⟩
        · rcases hbc with h3 | ⟨h3, _⟩
          · exact Or.inl (by omega)
          · exact Or.inl (by omega)
        · rcases hbc with h3 | ⟨h3, h4⟩
          · exact Or.inl (by omega)
          · exact Or.inr ⟨by omega, ih ys zs h2 h4⟩

theorem typeLe_total (a b : JsVal) : typeLe a b = true ∨ typeLe b a = true := by
  cases a <;> cases b <;> simp only [typeLe, or_true, true_or] <;> exact unitsLe_total _ _

theorem typeLe_trans (a b c : JsVal) (hab : typeLe a b = true) (hbc : typeLe b c = true) :
    typeLe a c = true := by
  cases a <;> cases b <;> cases c <;> simp only [typeLe, Bool.false_eq_true] at hab hbc ⊢ <;>
    exact unitsLe_trans _ _ _ hab hbc

theorem sortTypes_sorted (types : List JsVal) :
    List.Sorted (fun a b => typeLe a b = true) (sortTypes types) := by
  haveI : IsTotal JsVal (fun a b => typeLe a b = true) := ⟨typeLe_total⟩
  haveI : IsTrans JsVal (fun a b => typeLe a b = true) := ⟨typeLe_trans⟩
  exact List.sorted_insertionSort _ _

theorem sortTypes_perm (types : List JsVal) : (sortTypes types).Perm types :=
  List.perm_insertionSort _ _

theorem hueSet_new (map : List (JsVal × ℚ)) (key : JsVal) (value : ℚ)
    (h : key ∉ map.map Prod.fst) : hueSet map key value = map ++ [(key, value)] := by
  induction map with
  | nil => rfl
  | cons e rest ih =>
    obtain ⟨k, v⟩ := e
    have hk : k ≠ key := by
      intro hk
      exact h (by simp [hk])
    have hrest : key ∉ rest.map Prod.fst := by
      intro hr
      exact h (by simp [hr])
    simp [hueSet, hk, ih hrest]

theorem hueList_keys (n : Nat) (types : List JsVal) :
    ∀ k, (hueList n k types).map Prod.fst = types := by
  induction types with
  | nil => intro k; rfl
  | cons t rest ih => intro k; simp [hueList, ih]

theorem hueReduce_eq (n : Nat) (types : List JsVal) :
    ∀ (map : List (JsVal × ℚ)) (k : Nat), types.Nodup →
      (∀ t ∈ types, t ∉ map.map Prod.fst) →
      hueReduce n map k types = map ++ hueList n k types := by
  induction types with
  | nil => intro map k _ _; simp [hueReduce, hueList]
  | cons t rest ih =>
    intro map k hn hd
    rw [List.nodup_cons] at hn
    rw [hueReduce, hueSet_new map t _ (hd t (List.mem_cons_self _ _)), ih _ _ hn.2]
    · simp [hueList]
    · intro u hu hmem
      simp only [List.map_append, List.map_cons, List.map_nil, List.mem_append,
        List.mem_singleton] at hmem
      rcases hmem with h | h
      · exact hd u (List.mem_cons_of_mem _ hu) h
      · exact hn.1 (h ▸ hu)

theorem hueList_getElem? (n : Nat) (types : List JsVal) :
    ∀ k i, (hueList n k types)[i]? =
      types[i]?.map (fun t => (t, ((k + i : Nat) : ℚ) / (n : ℚ))) := by
  induction types with
  | nil => intro k i; simp [hueList]
  | cons t rest ih =>
    intro k i
    cases i with
    | zero => simp [hueList]
    | succ i =>
      simp only [hueList, List.getElem?_cons_succ, ih]
      have : k + 1 + i = k + (i + 1) := by omega
      rw [this]

theorem hueList_values (n : Nat) (types : List JsVal) :
    ∀ k, ∀ e ∈ hueList n k types,
      ∃ i, k ≤ i ∧ i < k + types.length ∧ e.2 = (i : ℚ) / (n : ℚ) := by
  induction types with
  | nil => intro k e he; simp [hueList] at he
  | cons t rest ih =>
    intro k e he
    simp only [hueList, List.mem_cons] at he
    rcases he with h | h
    · exact ⟨k, le_refl _, by simp, by rw [h]⟩
    · obtain ⟨i, h1, h2, h3⟩ := ih (k + 1) e h
      exact ⟨i, by omega, by simp only [List.length_cons]; omega, h3⟩

theorem hueList_values_nodup (n : Nat) (hn : 0 < n) (types : List JsVal) :
    ∀ k, ((hueList n k types).map Prod.snd).Nodup := by
  induction types with
  | nil => intro k; simp [hueList]
  | cons t rest ih =>
    intro k
    simp only [hueList, List.map_cons, List.nodup_cons]
    refine ⟨?_, ih (k + 1)⟩
    intro hmem
    obtain ⟨e, he, heq⟩ := List.mem_map.1 hmem
    obtain ⟨i, h1, _, h3⟩ := hueList_values n rest (k + 1) e he
    rw [h3] at heq
    have hn0 : (n : ℚ) ≠ 0 := by exact_mod_cast (Nat.pos_iff_ne_zero.1 hn)
    have : i = k := by
      field_simp at heq
      exact_mod_cast heq
    omega

/-- C16: for every node list, the distinct node types are those of the nodes;
the colour map built in `updateToolbar` has as keys the ascending sort of the
distinct types, a rearrangement of them; the type at position `i` of the sort
is assigned the hue fraction `i / N`, where `N` is the number of distinct
types; the fractions lie in `[0, 1)` and are pairwise distinct. -/
theorem nodeTypeHue_fractions (nodesData : List Node) :
    (uniqueNodeTypes nodesData).Nodup ∧
      (∀ t, t ∈ uniqueNodeTypes nodesData ↔ ∃ node ∈ nodesData, node.type = t) ∧
      (sortTypes (uniqueNodeTypes nodesData)).Perm (uniqueNodeTypes nodesData) ∧
      List.Sorted (fun a b => typeLe a b = true) (sortTypes (uniqueNodeTypes nodesData)) ∧
      (nodeTypeHue nodesData).map Prod.fst = sortTypes (uniqueNodeTypes nodesData) ∧
      (∀ i : Nat, (nodeTypeHue nodesData)[i]? =
        (sortTypes (uniqueNodeTypes nodesData))[i]?.map
          (fun t => (t, (i : ℚ) / ((uniqueNodeTypes nodesData).length : ℚ)))) ∧
      (∀ e ∈ nodeTypeHue nodesData, 0 ≤ e.2 ∧ e.2 < 1) ∧
      ((nodeTypeHue nodesData).map Prod.snd).Nodup := by
  obtain ⟨hnodup, hmem⟩ := uniqueNodeTypes_from nodesData [] List.nodup_nil
  have hperm := sortTypes_perm (uniqueNodeTypes nodesData)
  have hsorted : (sortTypes (uniqueNodeTypes nodesData)).Nodup := hperm.nodup_iff.2 hnodup
  have hlen : (sortTypes (uniqueNodeTypes nodesData)).length =
      (uniqueNodeTypes nodesData).length := hperm.length_eq
  have heq : nodeTypeHue nodesData =
      hueList (uniqueNodeTypes nodesData).length 0 (sortTypes (uniqueNodeTypes nodesData)) := by
    simp only [nodeTypeHue]
    rw [hueReduce_eq _ _ [] 0 hsorted (by simp), hlen]
    simp
  refine ⟨hnodup, ?_, hperm, sortTypes_sorted _, ?_, ?_, ?_, ?_⟩
  · intro t
    simpa [uniqueNodeTypes] using hmem t
  · rw [heq, hueList_keys]
  · intro i
    rw [heq, hueList_getElem?, Nat.zero_add]
  · intro e he
    rw [heq] at he
    obtain ⟨i, _, h2, h3⟩ := hueList_values _ _ 0 e he
    rw [Nat.zero_add, hlen] at h2
    have hpos : (0 : ℚ) < ((uniqueNodeTypes nodesData).length : ℚ) := by
      exact_mod_cast (by omega : 0 < (uniqueNodeTypes nodesData).length)
    rw [h3]
    refine ⟨div_nonneg (Nat.cast_nonneg _) (le_of_lt hpos), ?_⟩
    rw [div_lt_one hpos]
    exact_mod_cast h2
  · rw [heq]
    by_cases hzero : (uniqueNodeTypes nodesData).length = 0
    · have : sortTypes (uniqueNodeTypes nodesData) = [] := by
        rw [← List.length_eq_zero, hlen, hzero]
      rw [this]
      simp [hueList]
    · exact hueList_values_nodup _ (Nat.pos_of_ne_zero hzero) _ 0

/-! ## The live nodes of the specification -/

end GraphVisualisation
